import Mathlib

/-!
# bcscr: source code report

A shallow embedding of `bcscr.c` (the three scanning loops of `main`) together
with the properties of the line-count aggregator and of the diff classifier.

The temporary file that `main` re-reads three times is modelled as a character
stream with an end-of-file indicator.  The three shell commands (`find`/`wc`
twice, `diff` once) are the environment: their outputs are the three texts that
`main` receives as arguments here.

`main` passes `&buf_bytes`, the address of an `int`, where `getline` takes a
`size_t *`.  The embedding follows the build the source documents
(`gcc bcscr.c -o bcscr` on an LP64 machine), where `buf_bytes` lies four bytes
below `lines`: the eight-byte size that `getline` reads and writes has
`buf_bytes` as its low half and `lines` as its high half.  `getline`,
`listingLoop`, `diffLoopBuf` and `main` carry this; `listingWarm`, `scanListing`,
`diffLoop` and `scanDiff` are the same loops with the buffer left out, and
`listingLoop_warm` and `diffLoopBuf_vars` relate the two.
-/

namespace Bcscr

/-! ## C integers -/

/-- A C `int` is 32-bit two's complement: `wrap32` brings the mathematical result of an
arithmetic operation back into `[-2^31, 2^31)`. -/
def wrap32 (x : Int) : Int := (x + 2147483648) % 4294967296 - 2147483648

/-- The macro `MIN(a,b)` is `((a)<(b)?(a):(b))`. -/
def MIN (a b : Int) : Int := if a < b then a else b

/-! ## The stream `infile` -/

/-- A `FILE*` opened for reading: the characters not yet consumed and the end-of-file
indicator tested by `feof`.  A character stands for one byte of the file. -/
structure FILE where
  rest : List Char
  eof : Bool
deriving DecidableEq

/-- The stream right after `fseek(infile, 0, SEEK_SET)` on a file holding `s`: positioned at the
start, end-of-file indicator cleared. -/
def fseek0 (s : List Char) : FILE := ⟨s, false⟩

/-- The characters `getline` takes from the input: up to and including the first newline, or
everything that is left.  The third component tells whether the end of the input was hit. -/
def readLine : List Char → List Char × List Char × Bool
  | [] => ([], [], true)
  | c :: cs =>
    if c = '\n' then ([c], cs, false)
    else ((c :: (readLine cs).1), (readLine cs).2.1, (readLine cs).2.2)

/-- The stream side of the call `getline(&buf, &buf_bytes, infile)`: what it returns and where it
leaves the stream.  `none` stands for the return value `-1` (nothing could be read), `some buf`
for a successful read of the line `buf` (newline included when there is one). -/
def nextLine (f : FILE) : Option (List Char) × FILE :=
  match readLine f.rest with
  | ([], r, _) => (none, ⟨r, true⟩)
  | (c :: cs, r, e) => (some (c :: cs), ⟨r, f.eof || e⟩)

/-- The C library's `isspace` in the "C" locale. -/
def isspace (c : Char) : Bool :=
  c = ' ' || c = '\t' || c = '\n' || c = '\x0b' || c = '\x0c' || c = '\r'

/-- The C library's `isdigit`. -/
def isdigit (c : Char) : Bool := decide ('0' ≤ c) && decide (c ≤ '9')

/-- The value of a sequence of decimal digits. -/
def digitsValue (ds : List Char) : Nat := ds.foldl (fun a c => 10 * a + (c.toNat - 48)) 0

/-- What `fscanf(infile, "%d", &lines)` returns: `EOF`, `0` (matching failure, `lines` is left
untouched) or `1` (with the value stored into `lines`). -/
inductive ScanResult where
  | eof : ScanResult
  | nomatch : ScanResult
  | assigned (v : Int) : ScanResult
deriving DecidableEq

/-- The call `fscanf(infile, "%d", &lines)`.  White space (newlines included) is skipped; at the end
of the input the call returns `EOF`.  Otherwise an optional sign and the longest run of digits
are consumed; without a digit the call returns `0` and stores nothing, else it stores the value,
truncated to an `int`, and returns `1`.  Running into the end of the input sets the end-of-file
indicator. -/
def fscanf_d (f : FILE) : ScanResult × FILE :=
  match f.rest.dropWhile isspace with
  | [] => (ScanResult.eof, ⟨[], true⟩)
  | c :: cs =>
    let body := if c = '-' ∨ c = '+' then cs else c :: cs
    let ds := body.takeWhile isdigit
    let f1 : FILE := ⟨body.dropWhile isdigit, f.eof || (body.dropWhile isdigit).isEmpty⟩
    if ds.isEmpty then (ScanResult.nomatch, f1)
    else (ScanResult.assigned (wrap32 (if c = '-' then - (digitsValue ds : Int) else digitsValue ds)), f1)

/-! ## `buf`, `buf_bytes` and `lines` -/

/-- How a stretch of the program ends: it returns, or it has written past the end of the block
`buf` points to (undefined behaviour: nothing is known of the run from there on, the build may
abort before anything is printed), or the bound on the iterations was reached. -/
inductive Outcome (α : Type) where
  | returned (a : α) : Outcome α
  | overrun : Outcome α
  | outOfFuel : Outcome α
deriving DecidableEq

/-- The three variables of `main` that `getline` touches: `buf` (`none` for `NULL`, `some c` for a
heap block of `c` bytes), `buf_bytes` and `lines`. -/
structure Mem where
  buf : Option Nat
  buf_bytes : Int
  lines : Int
deriving DecidableEq

/-- The `size_t` that `getline` finds at `&buf_bytes`: `buf_bytes` is its low half, `lines` its
high half. -/
def sizeWord (m : Mem) : Nat :=
  (m.lines % 4294967296).toNat * 4294967296 + (m.buf_bytes % 4294967296).toNat

/-- The variables after `getline` has made `buf` point to a block of `n` bytes and stored `n`
through its `size_t *` argument: both halves of the size are written. -/
def storeSize (n : Nat) : Mem :=
  ⟨some n, wrap32 ((n % 4294967296 : Nat) : Int),
    wrap32 ((n / 4294967296 % 4294967296 : Nat) : Int)⟩

/-- The first step of `getline`: when `buf` is `NULL` or the size is `0` it allocates 120 bytes
and stores the size `120`. -/
def allocate (m : Mem) : Mem :=
  if m.buf.isNone || sizeWord m == 0 then storeSize 120 else m

/-- The call `getline(&buf, &buf_bytes, infile)` of the C library (`getdelim`).  It first makes
sure there is a buffer (`allocate`), before it reads.  At the end of the input it returns `-1`.
Otherwise it takes the line, here in one piece, and needs its length plus one byte: when that
exceeds the stored size it reallocates, to twice the stored size if that is more, and stores the
new size; when it does not, it copies the line into the block as it is, past its end if the block
is smaller than the size claims.  Allocation is taken to succeed. -/
def getline (m : Mem) (f : FILE) : Outcome (Option (List Char) × Mem × FILE) :=
  match nextLine f with
  | (none, f1) => Outcome.returned (none, allocate m, f1)
  | (some line, f1) =>
    if sizeWord (allocate m) < line.length + 1 then
      Outcome.returned (some line,
        storeSize (max (line.length + 1) (2 * sizeWord (allocate m) % 18446744073709551616)), f1)
    else if (allocate m).buf.getD 0 < line.length + 1 then Outcome.overrun
    else Outcome.returned (some line, allocate m, f1)

/-! ## The listing scan (lines 153-161 and 170-178 of `bcscr.c`) -/

/-- The counters of a listing scan: `dirN_files` and `dirN_lines`. -/
structure Counters where
  files : Int
  total : Int
deriving DecidableEq

/-- The loop
`while(!feof(infile) && fscanf(infile, "%d", &lines) != EOF && getline(&buf, &buf_bytes, infile) != -1)`
with body `dirN_files++; dirN_lines += lines;`.  `fscanf` stores into `lines`, `getline` runs
next, and the body adds what `lines` holds then.  The first argument bounds the number of
iterations. -/
def listingLoop : Nat → FILE → Mem → Counters → Outcome (Mem × Counters)
  | 0, _, _, _ => Outcome.outOfFuel
  | fuel + 1, f, m, c =>
    if f.eof then Outcome.returned (m, c)
    else
      match fscanf_d f with
      | (ScanResult.eof, _) => Outcome.returned (m, c)
      | (ScanResult.nomatch, f1) =>
        match getline m f1 with
        | Outcome.returned (none, m2, _) => Outcome.returned (m2, c)
        | Outcome.returned (some _, m2, f2) =>
          listingLoop fuel f2 m2 ⟨wrap32 (c.files + 1), wrap32 (c.total + m2.lines)⟩
        | Outcome.overrun => Outcome.overrun
        | Outcome.outOfFuel => Outcome.outOfFuel
      | (ScanResult.assigned v, f1) =>
        match getline { m with lines := v } f1 with
        | Outcome.returned (none, m2, _) => Outcome.returned (m2, c)
        | Outcome.returned (some _, m2, f2) =>
          listingLoop fuel f2 m2 ⟨wrap32 (c.files + 1), wrap32 (c.total + m2.lines)⟩
        | Outcome.overrun => Outcome.overrun
        | Outcome.outOfFuel => Outcome.outOfFuel

/-- The variables of a listing scan with the buffer left out: `dirN_files`, `dirN_lines` and the
variable `lines` that `fscanf` writes to.  `lines` is declared once in `main` and used by both
scans. -/
structure ListingState where
  files : Int
  total : Int
  lines : Int
deriving DecidableEq

/-- The listing loop with the buffer left out: `getline` only moves the stream and `lines` keeps
what `fscanf` stored.  This is what the loop does to its variables once `buf` is allocated
(`listingLoop_warm`).  The first argument bounds the number of iterations; `none` means the
bound was reached. -/
def listingWarm : Nat → FILE → ListingState → Option ListingState
  | 0, _, _ => none
  | fuel + 1, f, st =>
    if f.eof then some st
    else
      match fscanf_d f with
      | (ScanResult.eof, _) => some st
      | (ScanResult.nomatch, f1) =>
        match nextLine f1 with
        | (none, _) => some st
        | (some _, f2) =>
          listingWarm fuel f2 ⟨wrap32 (st.files + 1), wrap32 (st.total + st.lines), st.lines⟩
      | (ScanResult.assigned v, f1) =>
        match nextLine f1 with
        | (none, _) => some ⟨st.files, st.total, v⟩
        | (some _, f2) => listingWarm fuel f2 ⟨wrap32 (st.files + 1), wrap32 (st.total + v), v⟩

/-- One listing scan entered with `buf` allocated, as the second scan is after a first listing
that was not empty: `dirN_files = 0; dirN_lines = 0; fseek(infile, 0, SEEK_SET);` and the loop.
`lines` is what the variable `lines` holds when the scan starts.  Every iteration consumes at
least one character, so `s.length + 1` iterations are enough. -/
def scanListing (lines : Int) (s : List Char) : Option ListingState :=
  listingWarm (s.length + 1) (fseek0 s) ⟨0, 0, lines⟩

/-! ## The diff scan (lines 187-222 of `bcscr.c`) -/

/-- The variables of the diff scan. -/
structure DiffState where
  gp : Int
  gm : Int
  change_lines : Int
  add_lines : Int
  del_lines : Int
deriving DecidableEq

/-- The `switch(buf[0])` statement. -/
def diffSwitch (c : Char) (st : DiffState) : DiffState :=
  if c = '<' then { st with gm := wrap32 (st.gm + 1) }
  else if c = '>' then { st with gp := wrap32 (st.gp + 1) }
  else if c = '-' then st
  else
    { gp := 0
      gm := 0
      change_lines := wrap32 (st.change_lines + MIN st.gp st.gm)
      add_lines := if st.gp > st.gm then wrap32 (st.add_lines + wrap32 (st.gp - st.gm))
        else st.add_lines
      del_lines := if st.gp > st.gm then st.del_lines
        else wrap32 (st.del_lines + wrap32 (st.gm - st.gp)) }

/-- The loop `while(!feof(infile) && getline(&buf, &buf_bytes, infile) != -1)` around the switch.
`buf[0]` is the first character of the line read (the terminating NUL for an empty buffer). -/
def diffLoopBuf : Nat → FILE → Mem → DiffState → Outcome (Mem × DiffState)
  | 0, _, _, _ => Outcome.outOfFuel
  | fuel + 1, f, m, st =>
    if f.eof then Outcome.returned (m, st)
    else
      match getline m f with
      | Outcome.returned (none, m1, _) => Outcome.returned (m1, st)
      | Outcome.returned (some buf, m1, f1) =>
        diffLoopBuf fuel f1 m1 (diffSwitch (buf.headD '\x00') st)
      | Outcome.overrun => Outcome.overrun
      | Outcome.outOfFuel => Outcome.outOfFuel

/-- The same loop with the buffer left out: `gp`, `gm` and the three tallies depend on the lines
read only, and every run of `diffLoopBuf` that returns ends with the values computed here
(`diffLoopBuf_vars`).  `none` means the bound on the iterations was reached. -/
def diffLoop : Nat → FILE → DiffState → Option DiffState
  | 0, _, _ => none
  | fuel + 1, f, st =>
    if f.eof then some st
    else
      match nextLine f with
      | (none, _) => some st
      | (some buf, f1) => diffLoop fuel f1 (diffSwitch (buf.headD '\x00') st)

/-- The diff scan with the buffer left out: the five assignments of lines 187-191, the `fseek`
and the loop. -/
def scanDiff (s : List Char) : Option DiffState :=
  diffLoop (s.length + 1) (fseek0 s) ⟨0, 0, 0, 0, 0⟩

/-! ## `main` -/

/-- The seven numbers printed by the three `printf` calls at the end of `main`. -/
structure Report where
  dir1_files : Int
  dir1_lines : Int
  dir2_files : Int
  dir2_lines : Int
  change_lines : Int
  add_lines : Int
  del_lines : Int
deriving DecidableEq

/-- The body of `main` from line 153 on.  `lines0` and `buf_bytes0` are the indeterminate values
the uninitialised variables `lines` and `buf_bytes` hold at the start, `buf` is `NULL`; `out1`,
`out2` and `out3` are what the two `find` commands and the `diff` command wrote to the temporary
file.  `buf`, `buf_bytes` and `lines` go from each scan to the next. -/
def main (lines0 buf_bytes0 : Int) (out1 out2 out3 : List Char) : Outcome Report :=
  match listingLoop (out1.length + 1) (fseek0 out1) ⟨none, buf_bytes0, lines0⟩ ⟨0, 0⟩ with
  | Outcome.returned (m1, d1) =>
    match listingLoop (out2.length + 1) (fseek0 out2) m1 ⟨0, 0⟩ with
    | Outcome.returned (m2, d2) =>
      match diffLoopBuf (out3.length + 1) (fseek0 out3) m2 ⟨0, 0, 0, 0, 0⟩ with
      | Outcome.returned (_, d) =>
        Outcome.returned
          ⟨d1.files, d1.total, d2.files, d2.total, d.change_lines, d.add_lines, d.del_lines⟩
      | Outcome.overrun => Outcome.overrun
      | Outcome.outOfFuel => Outcome.outOfFuel
    | Outcome.overrun => Outcome.overrun
    | Outcome.outOfFuel => Outcome.outOfFuel
  | Outcome.overrun => Outcome.overrun
  | Outcome.outOfFuel => Outcome.outOfFuel

/-- Warm variables: `buf` is allocated, `buf_bytes` holds a size below `2^31` and `lines` the
value of an `int`. -/
def Mem.warm (m : Mem) : Prop :=
  m.buf.isSome = true ∧ 0 < m.buf_bytes ∧ m.buf_bytes < 2147483648 ∧
    -2147483648 ≤ m.lines ∧ m.lines < 2147483648

/-! ## Texts as lists of lines -/

/-- A line of text: its characters, the terminating newline excluded. -/
structure Line where
  chars : List Char
  noNewline : '\n' ∉ chars

/-- The text whose lines are `L`, each one terminated by a newline. -/
def fileOf : List Line → List Char
  | [] => []
  | l :: ls => l.chars ++ '\n' :: fileOf ls

/-- The first character of a line as `buf[0]` sees it: an empty line is read as the buffer
holding just the newline. -/
def Line.first (l : Line) : Char := l.chars.headD '\n'

/-- The line starts with the character `c`. -/
def Line.startsWith (l : Line) (c : Char) : Bool := l.chars.head? == some c

/-- An Other line: its first character is none of `<`, `>`, `-`. -/
def Line.isOther (l : Line) : Bool :=
  !l.startsWith '<' && !l.startsWith '>' && !l.startsWith '-'

/-- The run of the diff loop over the lines of a transcript, one `switch` per line. -/
def diffFold (T : List Line) (st : DiffState) : DiffState :=
  T.foldl (fun s l => diffSwitch l.first s) st

/-- The state of the diff scan before the first line. -/
def diffInit : DiffState := ⟨0, 0, 0, 0, 0⟩

/-! ## Reference definitions for the diff classifier -/

/-- The number of lines of a segment that start with `>`. -/
def plusOf (seg : List Line) : Nat := seg.countP (fun l => l.startsWith '>')

/-- The number of lines of a segment that start with `<`. -/
def minusOf (seg : List Line) : Nat := seg.countP (fun l => l.startsWith '<')

/-- The transcript split at its Other lines, keeping the segments that are terminated by an
Other line: the last piece of the split, which no Other line follows, is left out. -/
def flushedRuns (T : List Line) : List (List Line) := (T.splitOnP Line.isOther).dropLast

/-- The last piece of the split: the lines after the last Other line. -/
def pendingRun (T : List Line) : List Line := (T.splitOnP Line.isOther).getLastD []

/-- The diff variables as mathematical integers, free of overflow. -/
structure Ideal where
  gp : Nat
  gm : Nat
  ch : Nat
  ad : Nat
  de : Nat

/-- The `switch` statement on mathematical integers. -/
def idealSwitch (c : Char) (s : Ideal) : Ideal :=
  if c = '<' then { s with gm := s.gm + 1 }
  else if c = '>' then { s with gp := s.gp + 1 }
  else if c = '-' then s
  else ⟨0, 0, s.ch + min s.gp s.gm, s.ad + (s.gp - s.gm), s.de + (s.gm - s.gp)⟩

/-- The diff loop on mathematical integers. -/
def idealFold (T : List Line) (s : Ideal) : Ideal :=
  T.foldl (fun s l => idealSwitch l.first s) s

/-- The machine state holding the values of an overflow-free state. -/
def Ideal.toState (s : Ideal) : DiffState := ⟨s.gp, s.gm, s.ch, s.ad, s.de⟩

/-! ## Sample transcripts -/

/-- The line `< x`. -/
def oldX : Line := ⟨"< x".toList, by decide⟩

/-- The line `< y`. -/
def oldY : Line := ⟨"< y".toList, by decide⟩

/-- The line `> z`. -/
def newZ : Line := ⟨"> z".toList, by decide⟩

/-- The group delimiter `---`. -/
def dashes : Line := ⟨"---".toList, by decide⟩

/-- A hunk header, an Other line. -/
def hunkHeader : Line := ⟨"1c1".toList, by decide⟩

/-- The transcript `["< x", "< y", "> z", "---"]`. -/
def trailingTranscript : List Line := [oldX, oldY, newZ, dashes]

/-- A run with five `>` lines and two `<` lines, followed by a hunk header. -/
def run52 : List Line := [newZ, newZ, oldX, newZ, dashes, oldY, newZ, newZ, hunkHeader]

/-- A transcript with one flushed run: `< x`, `> z`, then a hunk header. -/
def flushedOnce : List Line := [oldX, newZ, hunkHeader]

/-! ## Reference definitions for the line-count aggregator -/

/-- The line begins with a non-negative integer count: its first character is a digit. -/
def Line.beginsWithCount (l : Line) : Bool :=
  match l.chars with
  | [] => false
  | c :: _ => isdigit c

/-- The line has the form `<non-negative integer><whitespace><filename>`. -/
def Line.isEntry (l : Line) : Bool :=
  l.beginsWithCount &&
    match l.chars.dropWhile isdigit with
    | [] => false
    | c :: cs => isspace c && !(cs.dropWhile isspace).isEmpty

/-- The leading integer of a line. -/
def Line.count (l : Line) : Nat := digitsValue (l.chars.takeWhile isdigit)

/-- The sum of the leading integers of a listing. -/
def totalCount (L : List Line) : Nat := (L.map Line.count).sum

/-! ## Sample listings -/

/-- The line `10 a.c`. -/
def tenA : Line := ⟨"10 a.c".toList, by decide⟩

/-- The line `20 b.c`. -/
def twentyB : Line := ⟨"20 b.c".toList, by decide⟩

/-- A summary line `total`, whose first token is not an integer. -/
def totalLine : Line := ⟨"total".toList, by decide⟩

/-- The line `30 c.c`. -/
def thirtyC : Line := ⟨"30 c.c".toList, by decide⟩

/-- A diff line of 131 characters: `<` followed by 130 times `x`. -/
def longLine : Line := ⟨'<' :: List.replicate 130 'x', by decide⟩

/-- The line `2147483647 a`. -/
def maxEntry : Line := ⟨"2147483647 a".toList, by decide⟩

/-- The line `1 b`. -/
def oneB : Line := ⟨"1 b".toList, by decide⟩

/-! ## Streams and lines -/

theorem readLine_line (cs : List Char) (h : '\n' ∉ cs) (r : List Char) :
    readLine (cs ++ '\n' :: r) = (cs ++ ['\n'], r, false) := by
  induction cs with
  | nil => simp [readLine]
  | cons c cs ih =>
    have hc : c ≠ '\n' := fun e => h (by simp [e])
    have hcs : '\n' ∉ cs := fun e => h (by simp [e])
    simp [readLine, hc, ih hcs]

theorem nextLine_line (cs : List Char) (h : '\n' ∉ cs) (r : List Char) :
    nextLine ⟨cs ++ '\n' :: r, false⟩ = (some (cs ++ ['\n']), ⟨r, false⟩) := by
  unfold nextLine
  simp only [readLine_line cs h r]
  cases cs <;> simp

theorem headD_line (l : Line) : (l.chars ++ ['\n']).headD '\x00' = l.first := by
  unfold Line.first
  cases l.chars <;> simp

theorem fileOf_append (T U : List Line) : fileOf (T ++ U) = fileOf T ++ fileOf U := by
  induction T with
  | nil => rfl
  | cons l T ih => simp [fileOf, ih]

theorem diffLoop_fileOf (T : List Line) :
    ∀ (fuel : Nat) (st : DiffState), T.length < fuel →
      diffLoop fuel (fseek0 (fileOf T)) st = some (diffFold T st) := by
  induction T with
  | nil =>
    intro fuel st h
    cases fuel with
    | zero => omega
    | succ n => simp [diffLoop, fseek0, fileOf, nextLine, readLine, diffFold]
  | cons l T ih =>
    intro fuel st h
    cases fuel with
    | zero => omega
    | succ n =>
      have h2 : T.length < n := by simpa using h
      have := ih n (diffSwitch l.first st) h2
      simp only [fseek0] at this
      simp only [diffLoop, fseek0, fileOf, nextLine_line l.chars l.noNewline, headD_line, this]
      simp [diffFold]

theorem length_le_fileOf (T : List Line) : T.length ≤ (fileOf T).length := by
  induction T with
  | nil => simp
  | cons l T ih => simp [fileOf]; omega

theorem scanDiff_fileOf (T : List Line) : scanDiff (fileOf T) = some (diffFold T diffInit) := by
  unfold scanDiff
  exact diffLoop_fileOf T _ _ (by have := length_le_fileOf T; omega)

theorem diffFold_append (T U : List Line) (st : DiffState) :
    diffFold (T ++ U) st = diffFold U (diffFold T st) := by
  simp [diffFold, List.foldl_append]

/-! ## Termination: the loops without the buffer return on every input -/

theorem readLine_length (s : List Char) :
    (readLine s).1.length + (readLine s).2.1.length = s.length := by
  induction s with
  | nil => simp [readLine]
  | cons c cs ih =>
    unfold readLine
    split
    · simp
      omega
    · simp only [List.length_cons]
      omega

theorem nextLine_some_lt (f f1 : FILE) (buf : List Char) (h : nextLine f = (some buf, f1)) :
    f1.rest.length < f.rest.length := by
  have hl := readLine_length f.rest
  unfold nextLine at h
  split at h
  · simp at h
  · rename_i c cs r e heq
    rw [heq] at hl
    simp only [Prod.mk.injEq, Option.some.injEq] at h
    obtain ⟨_, rfl⟩ := h
    simp only [List.length_cons] at hl
    simp only
    omega

theorem fscanf_d_le (f : FILE) : (fscanf_d f).2.rest.length ≤ f.rest.length := by
  have h1 := (List.dropWhile_sublist (l := f.rest) isspace).length_le
  unfold fscanf_d
  split
  · simp
  · rename_i c cs heq
    rw [heq] at h1
    simp only [List.length_cons] at h1
    by_cases hs : c = '-' ∨ c = '+'
    · have h2 := (List.dropWhile_sublist (l := cs) isdigit).length_le
      simp only [hs, if_true]
      split <;> simp only <;> omega
    · have h2 := (List.dropWhile_sublist (l := c :: cs) isdigit).length_le
      simp only [List.length_cons] at h2
      simp only [hs, if_false]
      split <;> simp only <;> omega

/-- The diff loop returns whenever the bound on its iterations exceeds the number of characters
left. -/
theorem diffLoop_isSome (fuel : Nat) :
    ∀ (f : FILE) (st : DiffState), f.rest.length < fuel → (diffLoop fuel f st).isSome = true := by
  induction fuel with
  | zero => intro f st h; omega
  | succ n ih =>
    intro f st h
    unfold diffLoop
    split
    · rfl
    · split
      · rfl
      · rename_i buf f1 heq
        have := nextLine_some_lt f f1 buf heq
        exact ih f1 _ (by omega)

/-- The diff scan returns on every text. -/
theorem scanDiff_isSome (s : List Char) : (scanDiff s).isSome = true :=
  diffLoop_isSome _ _ _ (by simp [fseek0])

/-- The listing loop returns whenever the bound on its iterations exceeds the number of
characters left. -/
theorem listingWarm_isSome (fuel : Nat) :
    ∀ (f : FILE) (st : ListingState), f.rest.length < fuel →
      (listingWarm fuel f st).isSome = true := by
  induction fuel with
  | zero => intro f st h; omega
  | succ n ih =>
    intro f st h
    have hle := fscanf_d_le f
    unfold listingWarm
    split
    · rfl
    · split
      · rfl
      · rename_i f1 heq
        rw [heq] at hle
        split
        · rfl
        · rename_i buf f2 heq2
          have := nextLine_some_lt f1 f2 buf heq2
          exact ih f2 _ (by simp only at hle; omega)
      · rename_i v f1 heq
        rw [heq] at hle
        split
        · rfl
        · rename_i buf f2 heq2
          have := nextLine_some_lt f1 f2 buf heq2
          exact ih f2 _ (by simp only at hle; omega)

/-- A listing scan returns on every text. -/
theorem scanListing_isSome (lines : Int) (s : List Char) :
    (scanListing lines s).isSome = true :=
  listingWarm_isSome _ _ _ (by simp [fseek0])

/-! ## The buffer and the variables -/

/-- Whatever the buffer, a call of `getline` that returns has read the stream as `nextLine`
does. -/
theorem getline_stream (m : Mem) (f : FILE) (r : Option (List Char)) (m2 : Mem) (f2 : FILE)
    (h : getline m f = Outcome.returned (r, m2, f2)) : nextLine f = (r, f2) := by
  unfold getline at h
  generalize allocate m = m1 at h
  cases hn : nextLine f with
  | mk o f1 =>
    rw [hn] at h
    cases o with
    | none =>
      simp only [Outcome.returned.injEq, Prod.mk.injEq] at h
      obtain ⟨rfl, _, rfl⟩ := h
      rfl
    | some line =>
      simp only at h
      split at h
      · simp only [Outcome.returned.injEq, Prod.mk.injEq] at h
        obtain ⟨rfl, _, rfl⟩ := h
        rfl
      · split at h
        · cases h
        · simp only [Outcome.returned.injEq, Prod.mk.injEq] at h
          obtain ⟨rfl, _, rfl⟩ := h
          rfl

theorem getline_ne_outOfFuel (m : Mem) (f : FILE) : getline m f ≠ Outcome.outOfFuel := by
  unfold getline
  generalize allocate m = m1
  cases hn : nextLine f with
  | mk o f1 =>
    cases o with
    | none => simp
    | some line =>
      simp only
      split
      · simp
      · split <;> simp

/-- Every run of the diff loop that returns ends with the `gp`, `gm` and tallies that the loop
without the buffer computes. -/
theorem diffLoopBuf_vars (fuel : Nat) :
    ∀ (f : FILE) (m : Mem) (st : DiffState) (m2 : Mem) (st2 : DiffState),
      diffLoopBuf fuel f m st = Outcome.returned (m2, st2) → diffLoop fuel f st = some st2 := by
  induction fuel with
  | zero =>
    intro f m st m2 st2 h
    simp [diffLoopBuf] at h
  | succ n ih =>
    intro f m st m2 st2 h
    unfold diffLoopBuf at h
    unfold diffLoop
    cases he : f.eof with
    | true =>
      rw [he] at h
      simp only [if_true, Outcome.returned.injEq, Prod.mk.injEq] at h
      simp [h.2]
    | false =>
      rw [he] at h
      simp only [Bool.false_eq_true, if_false] at h ⊢
      cases hg : getline m f with
      | returned x =>
        obtain ⟨r, m1, f1⟩ := x
        rw [hg] at h
        rw [getline_stream m f r m1 f1 hg]
        cases r with
        | none =>
          simp only [Outcome.returned.injEq, Prod.mk.injEq] at h
          simp [h.2]
        | some buf =>
          simp only at h
          simpa using ih f1 m1 _ m2 st2 h
      | overrun =>
        rw [hg] at h
        simp at h
      | outOfFuel =>
        rw [hg] at h
        simp at h

/-- The bound on the iterations of the diff loop is never reached when it exceeds the number of
characters left. -/
theorem diffLoopBuf_fuel (fuel : Nat) :
    ∀ (f : FILE) (m : Mem) (st : DiffState), f.rest.length < fuel →
      diffLoopBuf fuel f m st ≠ Outcome.outOfFuel := by
  induction fuel with
  | zero => intro f m st h; omega
  | succ n ih =>
    intro f m st h
    unfold diffLoopBuf
    by_cases he : f.eof = true
    · simp [he]
    · simp only [he, Bool.false_eq_true, if_false]
      cases hg : getline m f with
      | returned x =>
        obtain ⟨r, m1, f1⟩ := x
        cases r with
        | none => simp
        | some buf =>
          have := nextLine_some_lt f f1 buf (getline_stream m f _ m1 f1 hg)
          simpa using ih f1 m1 _ (by omega)
      | overrun => simp
      | outOfFuel => exact absurd hg (getline_ne_outOfFuel m f)

/-- One round of the listing loop after `fscanf`: `getline`, then the body. -/
theorem listingLoop_round_fuel (n : Nat)
    (ih : ∀ (f : FILE) (m : Mem) (c : Counters), f.rest.length < n →
      listingLoop n f m c ≠ Outcome.outOfFuel)
    (m : Mem) (f1 : FILE) (c : Counters) (h : f1.rest.length < n + 1) :
    (match getline m f1 with
      | Outcome.returned (none, m2, _) => Outcome.returned (m2, c)
      | Outcome.returned (some _, m2, f2) =>
        listingLoop n f2 m2 ⟨wrap32 (c.files + 1), wrap32 (c.total + m2.lines)⟩
      | Outcome.overrun => Outcome.overrun
      | Outcome.outOfFuel => Outcome.outOfFuel) ≠ Outcome.outOfFuel := by
  cases hg : getline m f1 with
  | returned x =>
    obtain ⟨r, m1, f2⟩ := x
    cases r with
    | none => simp
    | some buf =>
      have := nextLine_some_lt f1 f2 buf (getline_stream m f1 _ m1 f2 hg)
      simpa using ih f2 m1 _ (by omega)
  | overrun => simp
  | outOfFuel => exact absurd hg (getline_ne_outOfFuel _ _)

/-- The bound on the iterations of the listing loop is never reached when it exceeds the number
of characters left. -/
theorem listingLoop_fuel (fuel : Nat) :
    ∀ (f : FILE) (m : Mem) (c : Counters), f.rest.length < fuel →
      listingLoop fuel f m c ≠ Outcome.outOfFuel := by
  induction fuel with
  | zero => intro f m c h; omega
  | succ n ih =>
    intro f m c h
    have hle := fscanf_d_le f
    unfold listingLoop
    by_cases he : f.eof = true
    · simp [he]
    · simp only [he, Bool.false_eq_true, if_false]
      cases hs : fscanf_d f with
      | mk r f1 =>
        rw [hs] at hle
        simp only at hle
        cases r
        · simp
        · exact listingLoop_round_fuel n ih m f1 c (by omega)
        · exact listingLoop_round_fuel n ih _ f1 c (by omega)

/-- The bounds on the iterations in `main` are never reached: `main` returns its report or
writes past the end of `buf`. -/
theorem main_fuel (lines0 buf_bytes0 : Int) (out1 out2 out3 : List Char) :
    main lines0 buf_bytes0 out1 out2 out3 ≠ Outcome.outOfFuel := by
  unfold main
  have h1 := listingLoop_fuel (out1.length + 1) (fseek0 out1) ⟨none, buf_bytes0, lines0⟩ ⟨0, 0⟩
    (by simp [fseek0])
  cases e1 : listingLoop (out1.length + 1) (fseek0 out1) ⟨none, buf_bytes0, lines0⟩ ⟨0, 0⟩ with
  | returned x1 =>
    obtain ⟨m1, d1⟩ := x1
    simp only
    have h2 := listingLoop_fuel (out2.length + 1) (fseek0 out2) m1 ⟨0, 0⟩ (by simp [fseek0])
    cases e2 : listingLoop (out2.length + 1) (fseek0 out2) m1 ⟨0, 0⟩ with
    | returned x2 =>
      obtain ⟨m2, d2⟩ := x2
      simp only
      have h3 := diffLoopBuf_fuel (out3.length + 1) (fseek0 out3) m2 ⟨0, 0, 0, 0, 0⟩
        (by simp [fseek0])
      cases e3 : diffLoopBuf (out3.length + 1) (fseek0 out3) m2 ⟨0, 0, 0, 0, 0⟩ with
      | returned x3 => simp
      | overrun => simp
      | outOfFuel => exact absurd e3 h3
    | overrun => simp
    | outOfFuel => exact absurd e2 h2
  | overrun => simp
  | outOfFuel => exact absurd e1 h1

/-- Whenever `main` prints its report, the diff tally in it is the one of `scanDiff` on the diff
transcript. -/
theorem main_tally (lines0 buf_bytes0 : Int) (out1 out2 out3 : List Char) (r : Report)
    (h : main lines0 buf_bytes0 out1 out2 out3 = Outcome.returned r) :
    ∃ st : DiffState, scanDiff out3 = some st ∧ r.change_lines = st.change_lines ∧
      r.add_lines = st.add_lines ∧ r.del_lines = st.del_lines := by
  unfold main at h
  cases e1 : listingLoop (out1.length + 1) (fseek0 out1) ⟨none, buf_bytes0, lines0⟩ ⟨0, 0⟩ with
  | returned x1 =>
    obtain ⟨m1, d1⟩ := x1
    rw [e1] at h
    simp only at h
    cases e2 : listingLoop (out2.length + 1) (fseek0 out2) m1 ⟨0, 0⟩ with
    | returned x2 =>
      obtain ⟨m2, d2⟩ := x2
      rw [e2] at h
      simp only at h
      cases e3 : diffLoopBuf (out3.length + 1) (fseek0 out3) m2 ⟨0, 0, 0, 0, 0⟩ with
      | returned x3 =>
        obtain ⟨m3, d⟩ := x3
        rw [e3] at h
        simp only [Outcome.returned.injEq] at h
        refine ⟨d, diffLoopBuf_vars _ _ _ _ _ _ e3, ?_⟩
        rw [← h]
        exact ⟨rfl, rfl, rfl⟩
      | overrun => rw [e3] at h; simp at h
      | outOfFuel => rw [e3] at h; simp at h
    | overrun => rw [e2] at h; simp at h
    | outOfFuel => rw [e2] at h; simp at h
  | overrun => rw [e1] at h; simp at h
  | outOfFuel => rw [e1] at h; simp at h

/-! ## The listing loop once `buf` is allocated -/

theorem nextLine_some_len (f f1 : FILE) (buf : List Char) (h : nextLine f = (some buf, f1)) :
    buf.length + f1.rest.length = f.rest.length := by
  have hl := readLine_length f.rest
  unfold nextLine at h
  split at h
  · simp at h
  · rename_i c cs r e heq
    rw [heq] at hl
    simp only [Prod.mk.injEq, Option.some.injEq] at h
    obtain ⟨rfl, rfl⟩ := h
    simpa using hl

theorem wrap32_range (x : Int) : -2147483648 ≤ wrap32 x ∧ wrap32 x < 2147483648 := by
  unfold wrap32
  omega

theorem fscanf_d_assigned_range (f f1 : FILE) (v : Int)
    (h : fscanf_d f = (ScanResult.assigned v, f1)) : -2147483648 ≤ v ∧ v < 2147483648 := by
  unfold fscanf_d at h
  split at h
  · simp at h
  · simp only at h
    split at h <;> split at h <;>
      first
      | (simp at h; done)
      | (simp only [Prod.mk.injEq, ScanResult.assigned.injEq] at h
         rw [← h.1]
         exact wrap32_range _)

theorem allocate_warm (m : Mem) (hw : m.warm) : allocate m = m := by
  obtain ⟨hb, h0, h1, h2, h3⟩ := hw
  have hs : sizeWord m ≠ 0 := by
    unfold sizeWord
    omega
  unfold allocate
  cases hbuf : m.buf with
  | none => simp [hbuf] at hb
  | some c => simp [hs]

/-- Once `buf` is allocated, a call of `getline` on a text of less than `2^30` characters leaves
`lines` as it is. -/
theorem getline_warm (m : Mem) (f : FILE) (r : Option (List Char)) (m2 : Mem) (f2 : FILE)
    (hw : m.warm) (hf : f.rest.length < 1073741824)
    (h : getline m f = Outcome.returned (r, m2, f2)) : m2.lines = m.lines ∧ m2.warm := by
  have hs := getline_stream m f r m2 f2 h
  unfold getline at h
  rw [allocate_warm m hw, hs] at h
  cases r with
  | none =>
    simp only [Outcome.returned.injEq, Prod.mk.injEq, true_and] at h
    rw [← h.1]
    exact ⟨rfl, hw⟩
  | some line =>
    have hlen := nextLine_some_len f f2 line hs
    simp only at h
    split at h
    · rename_i hlt
      simp only [Outcome.returned.injEq, Prod.mk.injEq, true_and] at h
      obtain ⟨hb, h0, h1, h2, h3⟩ := hw
      unfold sizeWord at hlt
      have hl0 : m.lines = 0 := by omega
      rw [← h.1]
      generalize hN : max (line.length + 1) (2 * sizeWord m % 18446744073709551616) = N
      have hN1 : 0 < N := by
        rw [← hN]
        omega
      have hN2 : N < 2147483648 := by
        rw [← hN]
        unfold sizeWord
        omega
      unfold Mem.warm storeSize wrap32
      simp only [Option.isSome_some, true_and]
      rw [hl0]
      omega
    · split at h
      · cases h
      · simp only [Outcome.returned.injEq, Prod.mk.injEq, true_and] at h
        rw [← h.1]
        exact ⟨rfl, hw⟩

/-- One round of the listing loop after `fscanf`, once `buf` is allocated. -/
theorem listingLoop_round_warm (n : Nat)
    (ih : ∀ (f : FILE) (m : Mem) (c : Counters) (m2 : Mem) (c2 : Counters), m.warm →
      f.rest.length < 1073741824 → listingLoop n f m c = Outcome.returned (m2, c2) →
      listingWarm n f ⟨c.files, c.total, m.lines⟩ = some ⟨c2.files, c2.total, m2.lines⟩ ∧
        m2.warm)
    (m : Mem) (f1 : FILE) (c : Counters) (m2 : Mem) (c2 : Counters) (hw : m.warm)
    (hf : f1.rest.length < 1073741824)
    (h : (match getline m f1 with
      | Outcome.returned (none, m3, _) => Outcome.returned (m3, c)
      | Outcome.returned (some _, m3, f2) =>
        listingLoop n f2 m3 ⟨wrap32 (c.files + 1), wrap32 (c.total + m3.lines)⟩
      | Outcome.overrun => Outcome.overrun
      | Outcome.outOfFuel => Outcome.outOfFuel) = Outcome.returned (m2, c2)) :
    (match nextLine f1 with
      | (none, _) => some (⟨c.files, c.total, m.lines⟩ : ListingState)
      | (some _, f2) =>
        listingWarm n f2 ⟨wrap32 (c.files + 1), wrap32 (c.total + m.lines), m.lines⟩)
      = some ⟨c2.files, c2.total, m2.lines⟩ ∧ m2.warm := by
  cases hg : getline m f1 with
  | returned x =>
    obtain ⟨r, m3, f2⟩ := x
    rw [hg] at h
    obtain ⟨hl, hw3⟩ := getline_warm m f1 r m3 f2 hw hf hg
    have hs := getline_stream m f1 r m3 f2 hg
    rw [hs]
    cases r with
    | none =>
      simp only [Outcome.returned.injEq, Prod.mk.injEq] at h
      obtain ⟨rfl, rfl⟩ := h
      exact ⟨by simp [hl], hw3⟩
    | some buf =>
      have := nextLine_some_len f1 f2 buf hs
      simp only at h
      have e := ih f2 m3 _ m2 c2 hw3 (by omega) h
      simp only at e ⊢
      rw [← hl]
      exact e
  | overrun =>
    rw [hg] at h
    simp at h
  | outOfFuel =>
    rw [hg] at h
    simp at h

/-- Once `buf` is allocated, every run of the listing loop over a text of less than `2^30`
characters that returns ends with the `dirN_files`, `dirN_lines` and `lines` that the loop
without the buffer computes. -/
theorem listingLoop_warm (fuel : Nat) :
    ∀ (f : FILE) (m : Mem) (c : Counters) (m2 : Mem) (c2 : Counters), m.warm →
      f.rest.length < 1073741824 → listingLoop fuel f m c = Outcome.returned (m2, c2) →
      listingWarm fuel f ⟨c.files, c.total, m.lines⟩ = some ⟨c2.files, c2.total, m2.lines⟩ ∧
        m2.warm := by
  induction fuel with
  | zero =>
    intro f m c m2 c2 hw hf h
    simp [listingLoop] at h
  | succ n ih =>
    intro f m c m2 c2 hw hf h
    have hle := fscanf_d_le f
    unfold listingLoop at h
    unfold listingWarm
    cases he : f.eof with
    | true =>
      rw [he] at h
      simp only [if_true, Outcome.returned.injEq, Prod.mk.injEq] at h
      obtain ⟨rfl, rfl⟩ := h
      exact ⟨by simp, hw⟩
    | false =>
      rw [he] at h
      simp only [Bool.false_eq_true, if_false] at h ⊢
      cases hs : fscanf_d f with
      | mk r f1 =>
        rw [hs] at h hle
        simp only at hle
        cases r
        · simp only [Outcome.returned.injEq, Prod.mk.injEq] at h
          obtain ⟨rfl, rfl⟩ := h
          exact ⟨by simp, hw⟩
        · exact listingLoop_round_warm n ih m f1 c m2 c2 hw (by omega) h
        · rename_i v
          obtain ⟨v1, v2⟩ := fscanf_d_assigned_range f f1 v hs
          have hw2 : ({ m with lines := v } : Mem).warm :=
            ⟨hw.1, hw.2.1, hw.2.2.1, v1, v2⟩
          exact listingLoop_round_warm n ih { m with lines := v } f1 c m2 c2 hw2 (by omega) h

/-! ## The first call of `getline` -/

theorem storeSize_warm : (storeSize 120).warm := by
  unfold Mem.warm
  decide

theorem allocate_cold (m : Mem) (hb : m.buf = none) : allocate m = storeSize 120 := by
  unfold allocate
  simp [hb]

/-- A call of `getline` with `buf` still `NULL` acts as on the variables right after the
allocation: `buf` of 120 bytes, `buf_bytes = 120`, `lines = 0`. -/
theorem getline_cold (m : Mem) (f : FILE) (hb : m.buf = none) :
    getline m f = getline (storeSize 120) f := by
  unfold getline
  rw [allocate_cold m hb, allocate_warm _ storeSize_warm]

/-- The call of `getline` that allocates `buf` leaves `lines = 0`, whatever `fscanf` has just
stored there. -/
theorem getline_cold_lines (m : Mem) (f : FILE) (r : Option (List Char)) (m2 : Mem) (f2 : FILE)
    (hb : m.buf = none) (hf : f.rest.length < 1073741824)
    (h : getline m f = Outcome.returned (r, m2, f2)) : m2.lines = 0 ∧ m2.warm := by
  rw [getline_cold m f hb] at h
  obtain ⟨hl, hw⟩ := getline_warm (storeSize 120) f r m2 f2 storeSize_warm hf h
  refine ⟨?_, hw⟩
  rw [hl]
  decide

/-- One round of the listing loop after `fscanf`, with `buf` still `NULL`: it leaves the
variables warm. -/
theorem listingLoop_round_cold (n : Nat) (m : Mem) (f1 : FILE) (c : Counters) (m2 : Mem)
    (c2 : Counters) (hb : m.buf = none) (hf : f1.rest.length < 1073741824)
    (h : (match getline m f1 with
      | Outcome.returned (none, m3, _) => Outcome.returned (m3, c)
      | Outcome.returned (some _, m3, f2) =>
        listingLoop n f2 m3 ⟨wrap32 (c.files + 1), wrap32 (c.total + m3.lines)⟩
      | Outcome.overrun => Outcome.overrun
      | Outcome.outOfFuel => Outcome.outOfFuel) = Outcome.returned (m2, c2)) :
    m2.warm := by
  cases hg : getline m f1 with
  | returned x =>
    obtain ⟨r, m3, f2⟩ := x
    rw [hg] at h
    obtain ⟨_, hw3⟩ := getline_cold_lines m f1 r m3 f2 hb hf hg
    have hs := getline_stream m f1 r m3 f2 hg
    cases r with
    | none =>
      simp only [Outcome.returned.injEq, Prod.mk.injEq] at h
      rw [← h.1]
      exact hw3
    | some buf =>
      have := nextLine_some_len f1 f2 buf hs
      simp only at h
      exact (listingLoop_warm n f2 m3 _ m2 c2 hw3 (by omega) h).2
  | overrun =>
    rw [hg] at h
    simp at h
  | outOfFuel =>
    rw [hg] at h
    simp at h

/-- A listing scan of a text that is not all white space, entered with `buf` still `NULL`,
leaves the variables warm. -/
theorem listingLoop_cold (s : List Char) (hs : s.dropWhile isspace ≠ [])
    (hl : s.length < 1073741824) (buf_bytes0 lines0 : Int) (c m2 c2) (fuel : Nat)
    (h : listingLoop fuel (fseek0 s) ⟨none, buf_bytes0, lines0⟩ c = Outcome.returned (m2, c2)) :
    m2.warm := by
  cases fuel with
  | zero => simp [listingLoop] at h
  | succ n =>
    have hle := fscanf_d_le (fseek0 s)
    unfold listingLoop at h
    simp only [fseek0, Bool.false_eq_true, if_false] at h hle
    cases hsc : fscanf_d ⟨s, false⟩ with
    | mk r f1 =>
      rw [hsc] at h hle
      simp only at hle
      cases r
      · exfalso
        unfold fscanf_d at hsc
        simp only at hsc
        split at hsc
        · rename_i heq
          exact hs heq
        · split at hsc <;> split at hsc <;> simp at hsc
      · exact listingLoop_round_cold n _ f1 c m2 c2 rfl (by omega) h
      · exact listingLoop_round_cold n _ f1 c m2 c2 rfl (by omega) h

/-- Whenever `main` prints its report, for texts of less than `2^30` characters and a first
listing that is not all white space, what it reports on the second directory is what
`scanListing` computes on the second listing from the value the first scan left in `lines`. -/
theorem main_second_listing (lines0 buf_bytes0 : Int) (out1 out2 out3 : List Char) (r : Report)
    (h1 : out1.dropWhile isspace ≠ []) (l1 : out1.length < 1073741824)
    (l2 : out2.length < 1073741824)
    (h : main lines0 buf_bytes0 out1 out2 out3 = Outcome.returned r) :
    ∃ (lines1 : Int) (st : ListingState), scanListing lines1 out2 = some st ∧
      r.dir2_files = st.files ∧ r.dir2_lines = st.total := by
  unfold main at h
  cases e1 : listingLoop (out1.length + 1) (fseek0 out1) ⟨none, buf_bytes0, lines0⟩ ⟨0, 0⟩ with
  | returned x1 =>
    obtain ⟨m1, d1⟩ := x1
    rw [e1] at h
    simp only at h
    have hw1 := listingLoop_cold out1 h1 l1 buf_bytes0 lines0 _ m1 d1 _ e1
    cases e2 : listingLoop (out2.length + 1) (fseek0 out2) m1 ⟨0, 0⟩ with
    | returned x2 =>
      obtain ⟨m2, d2⟩ := x2
      rw [e2] at h
      simp only at h
      have hw2 := (listingLoop_warm _ _ m1 _ m2 d2 hw1 (by simpa [fseek0] using l2) e2).1
      cases e3 : diffLoopBuf (out3.length + 1) (fseek0 out3) m2 ⟨0, 0, 0, 0, 0⟩ with
      | returned x3 =>
        obtain ⟨m3, d⟩ := x3
        rw [e3] at h
        simp only [Outcome.returned.injEq] at h
        refine ⟨m1.lines, _, hw2, ?_⟩
        rw [← h]
        exact ⟨rfl, rfl⟩
      | overrun => rw [e3] at h; simp at h
      | outOfFuel => rw [e3] at h; simp at h
    | overrun => rw [e2] at h; simp at h
    | outOfFuel => rw [e2] at h; simp at h
  | overrun => rw [e1] at h; simp at h
  | outOfFuel => rw [e1] at h; simp at h

/-! ## Splitting a transcript at its Other lines -/

theorem splitOnP_snoc_pos {α : Type} (p : α → Bool) (T : List α) (x : α) (h : p x = true) :
    (T ++ [x]).splitOnP p = T.splitOnP p ++ [[]] := by
  induction T with
  | nil => simp [h]
  | cons a T ih =>
    rw [List.cons_append, List.splitOnP_cons, List.splitOnP_cons, ih]
    by_cases ha : p a = true
    · simp [ha]
    · simp only [ha]
      cases hs : List.splitOnP p T with
      | nil => exact absurd hs (List.splitOnP_ne_nil p T)
      | cons s ss => simp

theorem splitOnP_snoc_neg {α : Type} (p : α → Bool) (T : List α) (x : α) (h : p x = false) :
    (T ++ [x]).splitOnP p
      = (T.splitOnP p).dropLast ++ [(T.splitOnP p).getLastD [] ++ [x]] := by
  induction T with
  | nil => simp [h]
  | cons a T ih =>
    rw [List.cons_append, List.splitOnP_cons, List.splitOnP_cons, ih]
    cases hs : List.splitOnP p T with
    | nil => exact absurd hs (List.splitOnP_ne_nil p T)
    | cons s ss =>
      by_cases ha : p a = true
      · simp [ha]
      · simp only [ha]
        cases ss with
        | nil => simp
        | cons s2 ss => simp

theorem flushedRuns_snoc_other (T : List Line) (x : Line) (h : x.isOther = true) :
    flushedRuns (T ++ [x]) = flushedRuns T ++ [pendingRun T] := by
  unfold flushedRuns pendingRun
  rw [splitOnP_snoc_pos _ _ _ h]
  cases hs : List.splitOnP Line.isOther T using List.reverseRecOn with
  | nil => exact absurd hs (List.splitOnP_ne_nil _ T)
  | append_singleton ss s => simp

theorem pendingRun_snoc_other (T : List Line) (x : Line) (h : x.isOther = true) :
    pendingRun (T ++ [x]) = [] := by
  unfold pendingRun
  rw [splitOnP_snoc_pos _ _ _ h]
  simp

theorem flushedRuns_snoc (T : List Line) (x : Line) (h : x.isOther = false) :
    flushedRuns (T ++ [x]) = flushedRuns T := by
  unfold flushedRuns
  rw [splitOnP_snoc_neg _ _ _ h]
  simp

theorem pendingRun_snoc (T : List Line) (x : Line) (h : x.isOther = false) :
    pendingRun (T ++ [x]) = pendingRun T ++ [x] := by
  unfold pendingRun
  rw [splitOnP_snoc_neg _ _ _ h]
  simp

/-! ## The classification of a line by `buf[0]` -/

theorem first_eq_iff (l : Line) (c : Char) (hc : c ≠ '\n') :
    l.first = c ↔ l.startsWith c = true := by
  unfold Line.first Line.startsWith
  cases l.chars with
  | nil => simp; exact fun e => hc e.symm
  | cons a as => simp

theorem first_lt (l : Line) : l.first = '<' ↔ l.startsWith '<' = true :=
  first_eq_iff l '<' (by decide)

theorem first_gt (l : Line) : l.first = '>' ↔ l.startsWith '>' = true :=
  first_eq_iff l '>' (by decide)

theorem first_dash (l : Line) : l.first = '-' ↔ l.startsWith '-' = true :=
  first_eq_iff l '-' (by decide)

theorem isOther_iff (l : Line) :
    l.isOther = true ↔ l.first ≠ '<' ∧ l.first ≠ '>' ∧ l.first ≠ '-' := by
  unfold Line.isOther
  rw [Ne, Ne, Ne, first_lt, first_gt, first_dash]
  simp [and_assoc]

theorem startsWith_unique (l : Line) (c d : Char) (hc : l.startsWith c = true)
    (hd : l.startsWith d = true) : c = d := by
  unfold Line.startsWith at hc hd
  cases h : l.chars.head? with
  | none => simp [h] at hc
  | some a =>
    simp [h] at hc hd
    rw [← hc, ← hd]

/-! ## The overflow-free run, in terms of the runs of the transcript -/

theorem idealFold_snoc (T : List Line) (x : Line) (s : Ideal) :
    idealFold (T ++ [x]) s = idealSwitch x.first (idealFold T s) := by
  simp [idealFold, List.foldl_append]

theorem diffFold_snoc (T : List Line) (x : Line) (st : DiffState) :
    diffFold (T ++ [x]) st = diffSwitch x.first (diffFold T st) := by
  simp [diffFold, List.foldl_append]

/-- The overflow-free run over `T` holds, in `gp` and `gm`, the counts of the pending run and, in
the three tallies, the sums over the flushed runs. -/
theorem idealFold_runs (T : List Line) :
    idealFold T ⟨0, 0, 0, 0, 0⟩ =
      ⟨plusOf (pendingRun T), minusOf (pendingRun T),
        ((flushedRuns T).map (fun r => min (plusOf r) (minusOf r))).sum,
        ((flushedRuns T).map (fun r => plusOf r - minusOf r)).sum,
        ((flushedRuns T).map (fun r => minusOf r - plusOf r)).sum⟩ := by
  induction T using List.reverseRecOn with
  | nil => simp [idealFold, pendingRun, flushedRuns, plusOf, minusOf]
  | append_singleton T x ih =>
    rw [idealFold_snoc, ih]
    by_cases ho : x.isOther = true
    · rw [flushedRuns_snoc_other T x ho, pendingRun_snoc_other T x ho]
      obtain ⟨h1, h2, h3⟩ := (isOther_iff x).1 ho
      simp [idealSwitch, h1, h2, h3, plusOf, minusOf]
    · have ho2 : x.isOther = false := by simpa using ho
      rw [flushedRuns_snoc T x ho2, pendingRun_snoc T x ho2]
      have hno : ¬ (x.first ≠ '<' ∧ x.first ≠ '>' ∧ x.first ≠ '-') :=
        fun h => ho ((isOther_iff x).2 h)
      by_cases h1 : x.first = '<'
      · have s1 := (first_lt x).1 h1
        have s2 : x.startsWith '>' = false := by
          cases h : x.startsWith '>' with
          | false => rfl
          | true => exact absurd (startsWith_unique x _ _ s1 h) (by decide)
        simp [idealSwitch, h1, plusOf, minusOf, List.countP_append, s1, s2]
      · by_cases h2 : x.first = '>'
        · have s1 := (first_gt x).1 h2
          have s2 : x.startsWith '<' = false := by
            cases h : x.startsWith '<' with
            | false => rfl
            | true => exact absurd (startsWith_unique x _ _ s1 h) (by decide)
          simp [idealSwitch, h2, plusOf, minusOf, List.countP_append, s1, s2]
        · have h3 : x.first = '-' := by
            by_contra h3
            exact hno ⟨h1, h2, h3⟩
          have s1 := (first_dash x).1 h3
          have s2 : x.startsWith '<' = false := by
            cases h : x.startsWith '<' with
            | false => rfl
            | true => exact absurd (startsWith_unique x _ _ s1 h) (by decide)
          have s3 : x.startsWith '>' = false := by
            cases h : x.startsWith '>' with
            | false => rfl
            | true => exact absurd (startsWith_unique x _ _ s1 h) (by decide)
          simp [idealSwitch, h3, plusOf, minusOf, List.countP_append, s2, s3]

/-- The four kinds of line, as the `switch` tells them apart. -/
theorem kind_cases (x : Line) :
    (x.first = '<' ∧ x.startsWith '<' = true ∧ x.startsWith '>' = false ∧ x.isOther = false) ∨
    (x.first = '>' ∧ x.startsWith '<' = false ∧ x.startsWith '>' = true ∧ x.isOther = false) ∨
    (x.first = '-' ∧ x.startsWith '<' = false ∧ x.startsWith '>' = false ∧ x.isOther = false) ∨
    (x.first ≠ '<' ∧ x.first ≠ '>' ∧ x.first ≠ '-' ∧ x.startsWith '<' = false ∧
      x.startsWith '>' = false ∧ x.isOther = true) := by
  have excl : ∀ c d : Char, c ≠ d → x.startsWith c = true → x.startsWith d = false := by
    intro c d hcd hc
    cases h : x.startsWith d with
    | false => rfl
    | true => exact absurd (startsWith_unique x _ _ hc h) hcd
  have noto : ∀ c : Char, (c = '<' ∨ c = '>' ∨ c = '-') → x.first = c → x.isOther = false := by
    intro c hc hx
    cases h : x.isOther with
    | false => rfl
    | true =>
      obtain ⟨h1, h2, h3⟩ := (isOther_iff x).1 h
      rcases hc with rfl | rfl | rfl
      · exact absurd hx h1
      · exact absurd hx h2
      · exact absurd hx h3
  by_cases h1 : x.first = '<'
  · have s1 := (first_lt x).1 h1
    exact Or.inl ⟨h1, s1, excl _ _ (by decide) s1, noto _ (Or.inl rfl) h1⟩
  · by_cases h2 : x.first = '>'
    · have s1 := (first_gt x).1 h2
      exact Or.inr (Or.inl ⟨h2, excl _ _ (by decide) s1, s1, noto _ (Or.inr (Or.inl rfl)) h2⟩)
    · have n1 : x.startsWith '<' = false := by
        cases h : x.startsWith '<' with
        | false => rfl
        | true => exact absurd ((first_lt x).2 h) h1
      have n2 : x.startsWith '>' = false := by
        cases h : x.startsWith '>' with
        | false => rfl
        | true => exact absurd ((first_gt x).2 h) h2
      by_cases h3 : x.first = '-'
      · exact Or.inr (Or.inr (Or.inl ⟨h3, n1, n2, noto _ (Or.inr (Or.inr rfl)) h3⟩))
      · exact Or.inr (Or.inr (Or.inr ⟨h1, h2, h3, n1, n2, (isOther_iff x).2 ⟨h1, h2, h3⟩⟩))

theorem plusOf_snoc (T : List Line) (x : Line) :
    plusOf (T ++ [x]) = plusOf T + (if x.startsWith '>' = true then 1 else 0) := by
  simp [plusOf, List.countP_append, List.countP_cons]

theorem minusOf_snoc (T : List Line) (x : Line) :
    minusOf (T ++ [x]) = minusOf T + (if x.startsWith '<' = true then 1 else 0) := by
  simp [minusOf, List.countP_append, List.countP_cons]

theorem plusOf_le (T : List Line) : plusOf T ≤ T.length := List.countP_le_length _

theorem minusOf_le (T : List Line) : minusOf T ≤ T.length := List.countP_le_length _

/-- Conservation of lines in the overflow-free run. -/
theorem ideal_conservation (T : List Line) :
    (idealFold T ⟨0, 0, 0, 0, 0⟩).ch + (idealFold T ⟨0, 0, 0, 0, 0⟩).ad
        + (idealFold T ⟨0, 0, 0, 0, 0⟩).gp = plusOf T ∧
    (idealFold T ⟨0, 0, 0, 0, 0⟩).ch + (idealFold T ⟨0, 0, 0, 0, 0⟩).de
        + (idealFold T ⟨0, 0, 0, 0, 0⟩).gm = minusOf T := by
  induction T using List.reverseRecOn with
  | nil => simp [idealFold, plusOf, minusOf]
  | append_singleton T x ih =>
    rw [idealFold_snoc, plusOf_snoc, minusOf_snoc]
    obtain ⟨ih1, ih2⟩ := ih
    rcases kind_cases x with ⟨h, s1, s2, _⟩ | ⟨h, s1, s2, _⟩ | ⟨h, s1, s2, _⟩ |
      ⟨h1, h2, h3, s1, s2, _⟩
    · simp only [idealSwitch, h, s1, s2]
      simp
      omega
    · simp only [idealSwitch, h, s1, s2]
      simp
      omega
    · simp only [idealSwitch, h, s1, s2]
      simp
      omega
    · simp only [idealSwitch, h1, h2, h3, s1, s2]
      simp
      omega

/-- Without overflow the `switch` on machine integers agrees with the one on mathematical
integers. -/
theorem diffSwitch_toState (c : Char) (s : Ideal)
    (hp : s.ch + s.ad + s.gp < 2147483647) (hm : s.ch + s.de + s.gm < 2147483647) :
    diffSwitch c s.toState = (idealSwitch c s).toState := by
  unfold diffSwitch idealSwitch Ideal.toState
  by_cases h1 : c = '<'
  · simp only [h1, if_true]
    simp [wrap32]
    omega
  · by_cases h2 : c = '>'
    · simp only [h1, h2, if_true, if_false]
      simp [wrap32]
      omega
    · by_cases h3 : c = '-'
      · simp [h1, h2, h3]
      · simp only [h1, h2, h3, if_false, MIN, wrap32]
        simp only [DiffState.mk.injEq]
        refine ⟨by simp, by simp, ?_, ?_, ?_⟩
        · split <;> omega
        · split <;> omega
        · split <;> omega

/-- A transcript of fewer than `2^31` lines is scanned without overflow. -/
theorem diffFold_eq_ideal (T : List Line) (h : T.length < 2147483648) :
    diffFold T diffInit = (idealFold T ⟨0, 0, 0, 0, 0⟩).toState := by
  induction T using List.reverseRecOn with
  | nil => rfl
  | append_singleton T x ih =>
    have hl : T.length < 2147483647 := by
      simp only [List.length_append, List.length_singleton] at h
      omega
    rw [diffFold_snoc, idealFold_snoc, ih (by omega)]
    obtain ⟨c1, c2⟩ := ideal_conservation T
    have := plusOf_le T
    have := minusOf_le T
    exact diffSwitch_toState _ _ (by omega) (by omega)

theorem idealFold_append (T U : List Line) (s : Ideal) :
    idealFold (T ++ U) s = idealFold U (idealFold T s) := by
  simp [idealFold, List.foldl_append]

/-- Lines that are not Other lines only move the run accumulator (overflow-free run). -/
theorem idealFold_noOther (R : List Line) (hR : ∀ l ∈ R, l.isOther = false) (s : Ideal) :
    idealFold R s = ⟨s.gp + plusOf R, s.gm + minusOf R, s.ch, s.ad, s.de⟩ := by
  induction R using List.reverseRecOn with
  | nil => simp [idealFold, plusOf, minusOf]
  | append_singleton R x ih =>
    have hx : x.isOther = false := hR x (by simp)
    rw [idealFold_snoc, ih (fun l hl => hR l (by simp [hl])), plusOf_snoc, minusOf_snoc]
    rcases kind_cases x with ⟨h, s1, s2, _⟩ | ⟨h, s1, s2, _⟩ | ⟨h, s1, s2, _⟩ |
      ⟨_, _, _, _, _, ho⟩
    · simp only [idealSwitch, h, s1, s2]
      simp
      omega
    · simp only [idealSwitch, h, s1, s2]
      simp
      omega
    · simp only [idealSwitch, h, s1, s2]
      simp
    · rw [hx] at ho
      exact absurd ho (by decide)

/-- The three tallies never decrease (overflow-free run). -/
theorem idealFold_mono (U : List Line) (s : Ideal) :
    s.ch ≤ (idealFold U s).ch ∧ s.ad ≤ (idealFold U s).ad ∧ s.de ≤ (idealFold U s).de := by
  induction U using List.reverseRecOn with
  | nil => simp [idealFold]
  | append_singleton U x ih =>
    rw [idealFold_snoc]
    obtain ⟨i1, i2, i3⟩ := ih
    unfold idealSwitch
    split
    · exact ⟨i1, i2, i3⟩
    · split
      · exact ⟨i1, i2, i3⟩
      · split
        · exact ⟨i1, i2, i3⟩
        · exact ⟨by simp only; omega, by simp only; omega, by simp only; omega⟩

/-- Lines that are not Other lines leave the three tallies alone (machine integers). -/
theorem diffFold_noOther (R : List Line) (hR : ∀ l ∈ R, l.isOther = false) (st : DiffState) :
    (diffFold R st).change_lines = st.change_lines ∧ (diffFold R st).add_lines = st.add_lines ∧
      (diffFold R st).del_lines = st.del_lines := by
  induction R using List.reverseRecOn with
  | nil => simp [diffFold]
  | append_singleton R x ih =>
    have hx : x.isOther = false := hR x (by simp)
    obtain ⟨i1, i2, i3⟩ := ih (fun l hl => hR l (by simp [hl]))
    rw [diffFold_snoc]
    rcases kind_cases x with ⟨h, _, _, _⟩ | ⟨h, _, _, _⟩ | ⟨h, _, _, _⟩ | ⟨_, _, _, _, _, ho⟩
    · simp only [diffSwitch, h]
      exact ⟨i1, i2, i3⟩
    · simp only [diffSwitch, h]
      exact ⟨i1, i2, i3⟩
    · simp only [diffSwitch, h]
      exact ⟨i1, i2, i3⟩
    · rw [hx] at ho
      exact absurd ho (by decide)

/-- A separator line changes nothing. -/
theorem diffSwitch_separator (x : Line) (hx : x.startsWith '-' = true) (st : DiffState) :
    diffSwitch x.first st = st := by
  have h := (first_dash x).2 hx
  simp [diffSwitch, h]

/-- An Other line flushes the run. -/
theorem diffSwitch_other (x : Line) (hx : x.isOther = true) (st : DiffState) :
    diffSwitch x.first st =
      { gp := 0
        gm := 0
        change_lines := wrap32 (st.change_lines + MIN st.gp st.gm)
        add_lines := if st.gp > st.gm then wrap32 (st.add_lines + wrap32 (st.gp - st.gm))
          else st.add_lines
        del_lines := if st.gp > st.gm then st.del_lines
          else wrap32 (st.del_lines + wrap32 (st.gm - st.gp)) } := by
  obtain ⟨h1, h2, h3⟩ := (isOther_iff x).1 hx
  simp only [diffSwitch, h1, h2, h3, if_false]

/-- The scan of `T ++ U` passes through the state reached at the end of `T` and goes on from
there over `U`. -/
theorem scanDiff_append (T U : List Line) :
    scanDiff (fileOf (T ++ U)) =
      (scanDiff (fileOf T)).bind
        (fun st => diffLoop ((fileOf U).length + 1) (fseek0 (fileOf U)) st) := by
  rw [scanDiff_fileOf, scanDiff_fileOf, Option.some_bind,
    diffLoop_fileOf U _ _ (by have := length_le_fileOf U; omega), diffFold_append]

/-- The same, with the state reached at the end of `T` written out. -/
theorem scanDiff_through (T U : List Line) :
    scanDiff (fileOf (T ++ U)) =
      diffLoop ((fileOf U).length + 1) (fseek0 (fileOf U)) (diffFold T diffInit) := by
  rw [scanDiff_append, scanDiff_fileOf, Option.some_bind]

/-! ## Sums over runs -/

theorem sum_filter_gt (rs : List (List Line)) :
    ((rs.filter (fun r => decide (minusOf r < plusOf r))).map
        (fun r => plusOf r - minusOf r)).sum
      = (rs.map (fun r => plusOf r - minusOf r)).sum := by
  induction rs with
  | nil => rfl
  | cons r rs ih =>
    by_cases h : minusOf r < plusOf r
    · simp [List.filter_cons, h, ih]
    · simp [List.filter_cons, h, ih]
      omega

theorem sum_filter_le (rs : List (List Line)) :
    ((rs.filter (fun r => decide (plusOf r ≤ minusOf r))).map
        (fun r => minusOf r - plusOf r)).sum
      = (rs.map (fun r => minusOf r - plusOf r)).sum := by
  induction rs with
  | nil => rfl
  | cons r rs ih =>
    by_cases h : plusOf r ≤ minusOf r
    · simp [List.filter_cons, h, ih]
    · simp [List.filter_cons, h, ih]
      omega

theorem sum_sub_sum (rs : List (List Line)) :
    (((rs.map (fun r => plusOf r - minusOf r)).sum : Nat) : Int)
        - (((rs.map (fun r => minusOf r - plusOf r)).sum : Nat) : Int)
      = (rs.map (fun r => (plusOf r : Int) - (minusOf r : Int))).sum := by
  induction rs with
  | nil => rfl
  | cons r rs ih =>
    simp only [List.map_cons, List.sum_cons]
    rw [← ih]
    push_cast
    omega

/-! ## The diff classifier -/

/-- C1: on a transcript of fewer than `2^31` lines (no integer overflow) the diff scan returns,
and its tally is the run-based reference: `changed` is the sum of `min(plus_i, minus_i)` over the
segments terminated by an Other line, `added` the sum of `plus_i - minus_i` over those with
`plus_i > minus_i`, `deleted` the sum of `minus_i - plus_i` over those with `plus_i <= minus_i`;
hence `added - deleted` is the sum of `plus_i - minus_i`.  Moreover, when nothing is pending at
the end of the transcript, a further run followed by an Other line contributes `k` to `changed`
and nothing to `added` and `deleted` if it has `plus = minus = k`, and contributes `2` to
`changed` and `3` to `added` if it has `plus = 5` and `minus = 2`. -/
theorem diff_classifier_eq_reference (T : List Line) (hT : T.length < 2147483648) :
    ∃ st : DiffState, scanDiff (fileOf T) = some st ∧
      st.change_lines
        = (((flushedRuns T).map (fun r => min (plusOf r) (minusOf r))).sum : Nat) ∧
      st.add_lines
        = ((((flushedRuns T).filter (fun r => decide (minusOf r < plusOf r))).map
            (fun r => plusOf r - minusOf r)).sum : Nat) ∧
      st.del_lines
        = ((((flushedRuns T).filter (fun r => decide (plusOf r ≤ minusOf r))).map
            (fun r => minusOf r - plusOf r)).sum : Nat) ∧
      st.add_lines - st.del_lines
        = ((flushedRuns T).map (fun r => (plusOf r : Int) - (minusOf r : Int))).sum ∧
      ∀ (R : List Line) (o : Line), (T ++ R ++ [o]).length < 2147483648 →
        st.gp = 0 → st.gm = 0 → (∀ l ∈ R, l.isOther = false) → o.isOther = true →
        ∃ st2 : DiffState, scanDiff (fileOf (T ++ R ++ [o])) = some st2 ∧
          (∀ k : Nat, plusOf R = k → minusOf R = k →
            st2.change_lines = st.change_lines + k ∧ st2.add_lines = st.add_lines ∧
              st2.del_lines = st.del_lines) ∧
          (plusOf R = 5 → minusOf R = 2 →
            st2.change_lines = st.change_lines + 2 ∧ st2.add_lines = st.add_lines + 3 ∧
              st2.del_lines = st.del_lines) := by
  refine ⟨_, scanDiff_fileOf T, ?_⟩
  rw [diffFold_eq_ideal T hT]
  refine ⟨?_, ?_, ?_, ?_, ?_⟩
  · rw [idealFold_runs]
    rfl
  · rw [idealFold_runs, sum_filter_gt]
    rfl
  · rw [idealFold_runs, sum_filter_le]
    rfl
  · rw [idealFold_runs]
    exact sum_sub_sum _
  · intro R o hlen hgp hgm hR ho
    refine ⟨_, scanDiff_fileOf _, ?_⟩
    rw [diffFold_eq_ideal _ hlen, idealFold_append, idealFold_append, idealFold_noOther R hR]
    have e : idealFold [o] = idealSwitch o.first := by
      funext s
      simp [idealFold]
    obtain ⟨h1, h2, h3⟩ := (isOther_iff o).1 ho
    have hgp2 : (idealFold T ⟨0, 0, 0, 0, 0⟩).gp = 0 := by
      simpa [Ideal.toState] using hgp
    have hgm2 : (idealFold T ⟨0, 0, 0, 0, 0⟩).gm = 0 := by
      simpa [Ideal.toState] using hgm
    rw [e]
    simp only [idealSwitch, h1, h2, h3, if_false, Ideal.toState, hgp2, hgm2]
    refine ⟨?_, ?_⟩
    · intro k hp hm
      rw [hp, hm]
      push_cast
      refine ⟨?_, ?_, ?_⟩ <;> simp
    · intro hp hm
      rw [hp, hm]
      push_cast
      refine ⟨?_, ?_, ?_⟩ <;> simp

/-- C1, at the run with five `>` lines and two `<` lines: the scan returns `changed = 2`,
`added = 3`, `deleted = 0`. -/
theorem diff_classifier_eq_reference_witness :
    run52.length < 2147483648 ∧
      ∃ st : DiffState, scanDiff (fileOf run52) = some st ∧
        st.change_lines = 2 ∧ st.add_lines = 3 ∧ st.del_lines = 0 := by
  obtain ⟨st, h, hc, ha, hd, _⟩ := diff_classifier_eq_reference run52 (by decide)
  refine ⟨by decide, st, h, ?_, ?_, ?_⟩
  · rw [hc]
    decide
  · rw [ha]
    decide
  · rw [hd]
    decide

/-- C4: lines that are not Other lines, put after a transcript `T`, leave the tally of `T`
unchanged: the trailing run is dropped.  In particular a transcript without an Other line, the
empty one included, yields `(0,0,0)`; so does `["< x", "< y", "> z", "---"]`, and with one Other
line appended it yields `changed = 1`, `added = 0`, `deleted = 1`. -/
theorem trailing_run_dropped (T R : List Line) (hR : ∀ l ∈ R, l.isOther = false) :
    (∃ st st2 : DiffState, scanDiff (fileOf T) = some st ∧
      scanDiff (fileOf (T ++ R)) = some st2 ∧
      st2.change_lines = st.change_lines ∧ st2.add_lines = st.add_lines ∧
      st2.del_lines = st.del_lines) ∧
    (∃ st : DiffState, scanDiff (fileOf R) = some st ∧
      st.change_lines = 0 ∧ st.add_lines = 0 ∧ st.del_lines = 0) ∧
    (∃ st : DiffState, scanDiff (fileOf []) = some st ∧
      st.change_lines = 0 ∧ st.add_lines = 0 ∧ st.del_lines = 0) ∧
    (∃ st : DiffState, scanDiff (fileOf trailingTranscript) = some st ∧
      st.change_lines = 0 ∧ st.add_lines = 0 ∧ st.del_lines = 0) ∧
    (∀ o : Line, o.isOther = true →
      ∃ st : DiffState, scanDiff (fileOf (trailingTranscript ++ [o])) = some st ∧
        st.change_lines = 1 ∧ st.add_lines = 0 ∧ st.del_lines = 1) := by
  refine ⟨?_, ?_, ?_, ?_, ?_⟩
  · refine ⟨_, _, scanDiff_fileOf T, scanDiff_fileOf (T ++ R), ?_⟩
    rw [diffFold_append]
    exact diffFold_noOther R hR _
  · exact ⟨_, scanDiff_fileOf R, diffFold_noOther R hR diffInit⟩
  · exact ⟨_, scanDiff_fileOf [], rfl, rfl, rfl⟩
  · exact ⟨_, scanDiff_fileOf trailingTranscript, by decide, by decide, by decide⟩
  · intro o ho
    refine ⟨_, scanDiff_fileOf _, ?_⟩
    rw [diffFold_snoc, diffSwitch_other o ho]
    have e : diffFold trailingTranscript diffInit = ⟨1, 2, 0, 0, 0⟩ := by decide
    rw [e]
    exact ⟨by decide, by decide, by decide⟩

/-- C4, at the transcript `["< x", "> z", hunk header]` followed by the trailing run
`["< x", "< y", "> z", "---"]`. -/
theorem trailing_run_dropped_witness :
    (∀ l ∈ trailingTranscript, l.isOther = false) ∧
      ∃ st st2 : DiffState, scanDiff (fileOf flushedOnce) = some st ∧
        scanDiff (fileOf (flushedOnce ++ trailingTranscript)) = some st2 ∧
        st2.change_lines = st.change_lines ∧ st2.add_lines = st.add_lines ∧
        st2.del_lines = st.del_lines :=
  ⟨by decide, (trailing_run_dropped flushedOnce trailingTranscript (by decide)).1⟩

/-- C5: a line whose first character is `-`, inserted at any position of a transcript (or deleted
from it), changes neither the tally nor the pending run accumulator: the two scans end in the
same state. -/
theorem separator_ignored (A B : List Line) (x : Line) (hx : x.startsWith '-' = true) :
    ∃ st : DiffState, scanDiff (fileOf (A ++ x :: B)) = some st ∧
      scanDiff (fileOf (A ++ B)) = some st := by
  refine ⟨_, scanDiff_fileOf _, ?_⟩
  rw [scanDiff_fileOf, diffFold_append, diffFold_append]
  have e : diffFold (x :: B) (diffFold A diffInit) = diffFold B (diffFold A diffInit) := by
    unfold diffFold
    rw [List.foldl_cons, diffSwitch_separator x hx]
  rw [e]

/-- C5, at `---` inserted between `< x` and `> z, hunk header`. -/
theorem separator_ignored_witness :
    dashes.startsWith '-' = true ∧
      ∃ st : DiffState, scanDiff (fileOf ([oldX] ++ dashes :: [newZ, hunkHeader])) = some st ∧
        scanDiff (fileOf ([oldX] ++ [newZ, hunkHeader])) = some st :=
  ⟨by decide, separator_ignored [oldX] [newZ, hunkHeader] dashes (by decide)⟩

/-- C7: without integer overflow (fewer than `2^31` lines) each of `changed`, `added`, `deleted`
after `T` followed by a line `x` is at least its value after `T`, and stays so over any further
lines `U`; none of them is ever negative. -/
theorem tally_monotone (T U : List Line) (x : Line)
    (h : (T ++ x :: U).length < 2147483648) :
    ∃ st st1 st2 : DiffState, scanDiff (fileOf T) = some st ∧
      scanDiff (fileOf (T ++ [x])) = some st1 ∧
      scanDiff (fileOf (T ++ x :: U)) = some st2 ∧
      (st.change_lines ≤ st1.change_lines ∧ st.add_lines ≤ st1.add_lines ∧
        st.del_lines ≤ st1.del_lines) ∧
      (st1.change_lines ≤ st2.change_lines ∧ st1.add_lines ≤ st2.add_lines ∧
        st1.del_lines ≤ st2.del_lines) ∧
      (0 ≤ st.change_lines ∧ 0 ≤ st.add_lines ∧ 0 ≤ st.del_lines) := by
  have hl : T.length + (U.length + 1) < 2147483648 := by
    simpa [List.length_append] using h
  have e : T ++ x :: U = (T ++ [x]) ++ U := by simp
  refine ⟨_, _, _, scanDiff_fileOf T, scanDiff_fileOf _, scanDiff_fileOf _, ?_⟩
  rw [e, diffFold_eq_ideal T (by omega), diffFold_eq_ideal (T ++ [x]) (by simp; omega),
    diffFold_eq_ideal ((T ++ [x]) ++ U) (by simp; omega), idealFold_append (T ++ [x]) U,
    idealFold_append T [x]]
  obtain ⟨a1, a2, a3⟩ := idealFold_mono [x] (idealFold T ⟨0, 0, 0, 0, 0⟩)
  obtain ⟨b1, b2, b3⟩ := idealFold_mono U (idealFold [x] (idealFold T ⟨0, 0, 0, 0, 0⟩))
  simp only [Ideal.toState]
  refine ⟨⟨?_, ?_, ?_⟩, ⟨?_, ?_, ?_⟩, ⟨?_, ?_, ?_⟩⟩ <;> omega

/-- C7, at `["< x", "> z"]` followed by a hunk header and then by `["< y", "---"]`. -/
theorem tally_monotone_witness :
    ([oldX, newZ] ++ hunkHeader :: [oldY, dashes]).length < 2147483648 ∧
      ∃ st st1 st2 : DiffState, scanDiff (fileOf [oldX, newZ]) = some st ∧
        scanDiff (fileOf ([oldX, newZ] ++ [hunkHeader])) = some st1 ∧
        scanDiff (fileOf ([oldX, newZ] ++ hunkHeader :: [oldY, dashes])) = some st2 ∧
        (st.change_lines ≤ st1.change_lines ∧ st.add_lines ≤ st1.add_lines ∧
          st.del_lines ≤ st1.del_lines) ∧
        (st1.change_lines ≤ st2.change_lines ∧ st1.add_lines ≤ st2.add_lines ∧
          st1.del_lines ≤ st2.del_lines) ∧
        (0 ≤ st.change_lines ∧ 0 ≤ st.add_lines ∧ 0 ≤ st.del_lines) :=
  ⟨by decide, tally_monotone [oldX, newZ] [oldY, dashes] hunkHeader (by decide)⟩

/-- In the overflow-free run `gp` and `gm` count the lines of the pending run. -/
theorem ideal_pending (T : List Line) :
    (idealFold T ⟨0, 0, 0, 0, 0⟩).gp = plusOf (pendingRun T) ∧
      (idealFold T ⟨0, 0, 0, 0, 0⟩).gm = minusOf (pendingRun T) := by
  rw [idealFold_runs]
  exact ⟨rfl, rfl⟩

/-- C8, refuted as stated: after `["< x", "> z", hunk header]` the run accumulator is back at
`(0, 0)`, no `<` or `>` line has been seen since the flush, and `changed` is `1`, which is not
at most `min(0, 0)`. -/
theorem changed_bound_counterexample :
    ∃ st : DiffState, scanDiff (fileOf flushedOnce) = some st ∧
      st.gm = (minusOf (pendingRun flushedOnce) : Nat) ∧
      st.gp = (plusOf (pendingRun flushedOnce) : Nat) ∧
      ¬ (st.change_lines ≤ min st.gm st.gp) :=
  ⟨⟨0, 0, 1, 0, 0⟩, by decide, by decide, by decide, by decide⟩

/-- C8, amended: without integer overflow (fewer than `2^31` lines consumed), at the point where
the scan of a transcript `T ++ U` has consumed `T`, the run accumulator `(gm, gp)` holds the
numbers of `<` and `>` lines seen since the last flush, and `changed` is at most `min(M, P)`
where `M` and `P` are the numbers of `<` and `>` lines of the runs flushed so far: those
consumed so far less those of the pending run. -/
theorem changed_le_flushed (T U : List Line) (hT : T.length < 2147483648) :
    ∃ st : DiffState, scanDiff (fileOf T) = some st ∧
      scanDiff (fileOf (T ++ U))
        = diffLoop ((fileOf U).length + 1) (fseek0 (fileOf U)) st ∧
      st.gm = (minusOf (pendingRun T) : Nat) ∧ st.gp = (plusOf (pendingRun T) : Nat) ∧
      st.change_lines ≤ min ((minusOf T : Int) - st.gm) ((plusOf T : Int) - st.gp) := by
  refine ⟨_, scanDiff_fileOf T, scanDiff_through T U, ?_⟩
  rw [diffFold_eq_ideal T hT]
  obtain ⟨c1, c2⟩ := ideal_conservation T
  obtain ⟨p1, p2⟩ := ideal_pending T
  simp only [Ideal.toState]
  refine ⟨by rw [p2], by rw [p1], ?_⟩
  rw [le_min_iff]
  constructor <;> omega

/-- C8 amended, at `["< x", "> z", hunk header]` as the consumed part of a transcript that goes
on with `["< y"]`. -/
theorem changed_le_flushed_witness :
    flushedOnce.length < 2147483648 ∧
      ∃ st : DiffState, scanDiff (fileOf flushedOnce) = some st ∧
        scanDiff (fileOf (flushedOnce ++ [oldY]))
          = diffLoop ((fileOf [oldY]).length + 1) (fseek0 (fileOf [oldY])) st ∧
        st.gm = (minusOf (pendingRun flushedOnce) : Nat) ∧
        st.gp = (plusOf (pendingRun flushedOnce) : Nat) ∧
        st.change_lines
          ≤ min ((minusOf flushedOnce : Int) - st.gm) ((plusOf flushedOnce : Int) - st.gp) :=
  ⟨by decide, changed_le_flushed flushedOnce [oldY] (by decide)⟩

/-- C10: without integer overflow (fewer than `2^31` lines consumed), at the point where the scan
of a transcript `T ++ U` has consumed `T`, `changed + added + gp` is the number of `>` lines of
`T` and `changed + deleted + gm` the number of its `<` lines; when the last line of `T` is an
Other line, `changed + added` and `changed + deleted` are these two numbers; and `changed` is at
most the smaller of them. -/
theorem diff_line_conservation (T U : List Line) (hT : T.length < 2147483648) :
    ∃ st : DiffState, scanDiff (fileOf T) = some st ∧
      scanDiff (fileOf (T ++ U))
        = diffLoop ((fileOf U).length + 1) (fseek0 (fileOf U)) st ∧
      st.change_lines + st.add_lines + st.gp = (plusOf T : Nat) ∧
      st.change_lines + st.del_lines + st.gm = (minusOf T : Nat) ∧
      (∀ o : Line, T.getLast? = some o → o.isOther = true →
        st.change_lines + st.add_lines = (plusOf T : Nat) ∧
          st.change_lines + st.del_lines = (minusOf T : Nat)) ∧
      st.change_lines ≤ min ((minusOf T : Nat) : Int) ((plusOf T : Nat) : Int) := by
  refine ⟨_, scanDiff_fileOf T, scanDiff_through T U, ?_⟩
  rw [diffFold_eq_ideal T hT]
  obtain ⟨c1, c2⟩ := ideal_conservation T
  simp only [Ideal.toState]
  refine ⟨by omega, by omega, ?_, ?_⟩
  · intro o hlast ho
    obtain ⟨T0, rfl⟩ := List.getLast?_eq_some_iff.1 hlast
    obtain ⟨h1, h2, h3⟩ := (isOther_iff o).1 ho
    have g : (idealFold (T0 ++ [o]) ⟨0, 0, 0, 0, 0⟩).gp = 0 ∧
        (idealFold (T0 ++ [o]) ⟨0, 0, 0, 0, 0⟩).gm = 0 := by
      rw [idealFold_snoc]
      simp [idealSwitch, h1, h2, h3]
    obtain ⟨g1, g2⟩ := g
    constructor <;> omega
  · rw [le_min_iff]
    constructor <;> omega

/-- C10, at the run with five `>` lines and two `<` lines followed by a hunk header, as the
consumed part of a transcript that goes on with `["< x"]`. -/
theorem diff_line_conservation_witness :
    run52.length < 2147483648 ∧
      ∃ st : DiffState, scanDiff (fileOf run52) = some st ∧
        st.change_lines + st.add_lines + st.gp = (plusOf run52 : Nat) ∧
        st.change_lines + st.del_lines + st.gm = (minusOf run52 : Nat) ∧
        st.change_lines ≤ min ((minusOf run52 : Nat) : Int) ((plusOf run52 : Nat) : Int) :=
  ⟨by decide, (diff_line_conservation run52 [oldX] (by decide)).imp
    (fun _ h => ⟨h.1, h.2.2.1, h.2.2.2.1, h.2.2.2.2.2⟩)⟩

/-! ## The listing scan on lines that begin with a count -/

theorem wrap32_add_left (a b : Int) : wrap32 (wrap32 a + b) = wrap32 (a + b) := by
  unfold wrap32
  omega

theorem wrap32_add_right (a b : Int) : wrap32 (a + wrap32 b) = wrap32 (a + b) := by
  unfold wrap32
  omega

theorem wrap32_small (a : Int) (h0 : 0 ≤ a) (h1 : a < 2147483648) : wrap32 a = a := by
  unfold wrap32
  omega

theorem takeWhile_append_stop (p : Char → Bool) (cs : List Char) (x : Char) (r : List Char)
    (hx : p x = false) : (cs ++ x :: r).takeWhile p = cs.takeWhile p := by
  induction cs with
  | nil => simp [List.takeWhile_cons, hx]
  | cons c cs ih => simp [List.takeWhile_cons, ih]

theorem dropWhile_append_stop (p : Char → Bool) (cs : List Char) (x : Char) (r : List Char)
    (hx : p x = false) : (cs ++ x :: r).dropWhile p = cs.dropWhile p ++ x :: r := by
  induction cs with
  | nil => simp [List.dropWhile_cons, hx]
  | cons c cs ih =>
    by_cases hc : p c = true
    · simp [List.dropWhile_cons, hc, ih]
    · simp [List.dropWhile_cons, hc]

theorem not_mem_dropWhile (p : Char → Bool) (cs : List Char) (x : Char) (h : x ∉ cs) :
    x ∉ cs.dropWhile p :=
  fun hx => h ((List.dropWhile_sublist p).subset hx)

theorem isdigit_not_space (c : Char) (h : isdigit c = true) :
    isspace c = false ∧ c ≠ '-' ∧ c ≠ '+' := by
  refine ⟨?_, ?_, ?_⟩
  · cases hs : isspace c with
    | false => rfl
    | true =>
      simp only [isspace, Bool.or_eq_true, decide_eq_true_eq] at hs
      rcases hs with ((((rfl | rfl) | rfl) | rfl) | rfl) | rfl <;> exact absurd h (by decide)
  · rintro rfl
    exact absurd h (by decide)
  · rintro rfl
    exact absurd h (by decide)

/-- On a line that begins with a count `fscanf` stores the count and stops right after its
digits. -/
theorem fscanf_d_count (l : Line) (h : l.beginsWithCount = true) (r : List Char) :
    fscanf_d ⟨l.chars ++ '\n' :: r, false⟩ =
      (ScanResult.assigned (wrap32 (l.count : Int)),
        ⟨l.chars.dropWhile isdigit ++ '\n' :: r, false⟩) := by
  unfold Line.beginsWithCount at h
  unfold Line.count
  cases hl : l.chars with
  | nil => simp [hl] at h
  | cons c cs =>
    rw [hl] at h
    simp only at h
    obtain ⟨h1, h2, h3⟩ := isdigit_not_space c h
    have hn : isdigit '\n' = false := by decide
    have e1 : ((c :: cs) ++ '\n' :: r).takeWhile isdigit = (c :: cs).takeWhile isdigit :=
      takeWhile_append_stop isdigit (c :: cs) '\n' r hn
    have e2 : ((c :: cs) ++ '\n' :: r).dropWhile isdigit
        = (c :: cs).dropWhile isdigit ++ '\n' :: r :=
      dropWhile_append_stop isdigit (c :: cs) '\n' r hn
    have e3 : ((c :: cs).takeWhile isdigit).isEmpty = false := by
      simp [List.takeWhile_cons, h]
    unfold fscanf_d
    simp only [List.cons_append, List.dropWhile_cons, h1, Bool.false_eq_true, if_false]
    simp only [h2, h3, or_self, if_false]
    rw [← List.cons_append, e1, e2, e3]
    simp [List.dropWhile_cons, h]

/-- The loop over a listing whose lines all begin with a count: every line is counted and its
count added, both modulo `2^32`. -/
theorem listingWarm_counts (L : List Line) (hL : ∀ l ∈ L, l.beginsWithCount = true) :
    ∀ (fuel : Nat) (a b ln : Int), L.length < fuel →
      ∃ ln2 : Int, listingWarm fuel (fseek0 (fileOf L)) ⟨wrap32 a, wrap32 b, ln⟩
        = some ⟨wrap32 (a + L.length), wrap32 (b + totalCount L), ln2⟩ := by
  induction L with
  | nil =>
    intro fuel a b ln h
    cases fuel with
    | zero => omega
    | succ n =>
      exact ⟨ln, by simp [listingWarm, fseek0, fileOf, fscanf_d, totalCount]⟩
  | cons l L ih =>
    intro fuel a b ln h
    cases fuel with
    | zero => omega
    | succ n =>
      have h2 : L.length < n := by simpa using h
      have hl : l.beginsWithCount = true := hL l (by simp)
      obtain ⟨ln2, e⟩ := ih (fun x hx => hL x (by simp [hx])) n (a + 1) (b + l.count)
        (wrap32 (l.count : Int)) h2
      refine ⟨ln2, ?_⟩
      simp only [fseek0] at e
      simp only [listingWarm, fseek0, fileOf, fscanf_d_count l hl,
        nextLine_line _ (not_mem_dropWhile isdigit _ _ l.noNewline), wrap32_add_left,
        wrap32_add_right]
      simp only [Bool.false_eq_true, if_false]
      rw [e]
      simp only [totalCount, List.map_cons, List.sum_cons, List.length_cons]
      push_cast
      congr 3 <;> ring

/-- One scan of a listing whose lines all begin with a count. -/
theorem scanListing_counts (L : List Line) (hL : ∀ l ∈ L, l.beginsWithCount = true)
    (lines : Int) :
    ∃ ln2 : Int, scanListing lines (fileOf L)
      = some ⟨wrap32 L.length, wrap32 (totalCount L), ln2⟩ := by
  obtain ⟨ln2, e⟩ := listingWarm_counts L hL ((fileOf L).length + 1) 0 0 lines
    (by have := length_le_fileOf L; omega)
  refine ⟨ln2, ?_⟩
  unfold scanListing
  have z : wrap32 0 = 0 := by decide
  rw [z] at e
  simpa using e

theorem isEntry_beginsWithCount (l : Line) (h : l.isEntry = true) :
    l.beginsWithCount = true := by
  unfold Line.isEntry at h
  simp only [Bool.and_eq_true] at h
  exact h.1

/-! ## The first listing scan -/

/-- The scan of the first listing, entered with `buf` still `NULL`, on lines that all begin with
a count: every line is counted, and every count but the first is added.  The first count is in
`lines` when the first call of `getline` stores the size `120` there. -/
theorem listingLoop_first (l : Line) (L : List Line) (hl : l.beginsWithCount = true)
    (hL : ∀ x ∈ L, x.beginsWithCount = true)
    (hlen : (fileOf (l :: L)).length < 1073741824) (buf_bytes0 lines0 : Int) (m2 : Mem)
    (c2 : Counters)
    (h : listingLoop ((fileOf (l :: L)).length + 1) (fseek0 (fileOf (l :: L)))
      ⟨none, buf_bytes0, lines0⟩ ⟨0, 0⟩ = Outcome.returned (m2, c2)) :
    c2.files = wrap32 ((l :: L).length : Int) ∧ c2.total = wrap32 (totalCount L : Int) := by
  have hlen2 : (fileOf L).length < (fileOf (l :: L)).length := by
    simp [fileOf]
    omega
  unfold listingLoop at h
  simp only [fseek0, fileOf, Bool.false_eq_true, if_false, fscanf_d_count l hl] at h
  cases hg : getline ⟨none, buf_bytes0, wrap32 (l.count : Int)⟩
      ⟨l.chars.dropWhile isdigit ++ '\n' :: fileOf L, false⟩ with
  | returned x =>
    obtain ⟨r, m3, f2⟩ := x
    rw [hg] at h
    have hs := getline_stream _ _ r m3 f2 hg
    rw [nextLine_line _ (not_mem_dropWhile isdigit _ _ l.noNewline)] at hs
    simp only [Prod.mk.injEq] at hs
    obtain ⟨rfl, rfl⟩ := hs
    have hf1 : (l.chars.dropWhile isdigit ++ '\n' :: fileOf L).length < 1073741824 := by
      have := (List.dropWhile_sublist (l := l.chars) isdigit).length_le
      simp only [fileOf, List.length_append, List.length_cons] at hlen ⊢
      omega
    obtain ⟨hz, hw3⟩ := getline_cold_lines _ _ _ m3 _ rfl hf1 hg
    simp only at h
    rw [hz] at h
    obtain ⟨e, _⟩ := listingLoop_warm _ _ m3 _ m2 c2 hw3 (by simp only; omega) h
    simp only at e
    have hLl := length_le_fileOf L
    obtain ⟨ln2, e2⟩ := listingWarm_counts L hL (l.chars ++ '\n' :: fileOf L).length
      1 0 m3.lines (by simp only [List.length_append, List.length_cons]; omega)
    simp only [fseek0] at e2
    have z : wrap32 (0 + 0) = wrap32 0 := by decide
    have w : wrap32 (0 + 1) = wrap32 1 := by decide
    rw [z, w, e2] at e
    simp only [Option.some.injEq, ListingState.mk.injEq] at e
    refine ⟨?_, ?_⟩
    · rw [← e.1]
      simp only [List.length_cons]
      push_cast
      congr 1
      ring
    · rw [← e.2.1]
      simp
  | overrun =>
    rw [hg] at h
    simp at h
  | outOfFuel =>
    rw [hg] at h
    simp at h

/-- Whenever `main` prints its report on a first listing of less than `2^30` characters whose
lines all begin with a count, the number of lines it reports for the first directory is the sum
of the counts without the first one. -/
theorem main_first_listing (l : Line) (L : List Line) (hl : l.beginsWithCount = true)
    (hL : ∀ x ∈ L, x.beginsWithCount = true)
    (hlen : (fileOf (l :: L)).length < 1073741824) (lines0 buf_bytes0 : Int)
    (out2 out3 : List Char) (r : Report)
    (h : main lines0 buf_bytes0 (fileOf (l :: L)) out2 out3 = Outcome.returned r) :
    r.dir1_files = wrap32 ((l :: L).length : Int) ∧
      r.dir1_lines = wrap32 (totalCount L : Int) := by
  unfold main at h
  cases e1 : listingLoop ((fileOf (l :: L)).length + 1) (fseek0 (fileOf (l :: L)))
      ⟨none, buf_bytes0, lines0⟩ ⟨0, 0⟩ with
  | returned x1 =>
    obtain ⟨m1, d1⟩ := x1
    rw [e1] at h
    simp only at h
    have hc := listingLoop_first l L hl hL hlen buf_bytes0 lines0 m1 d1 e1
    cases e2 : listingLoop (out2.length + 1) (fseek0 out2) m1 ⟨0, 0⟩ with
    | returned x2 =>
      obtain ⟨m2, d2⟩ := x2
      rw [e2] at h
      simp only at h
      cases e3 : diffLoopBuf (out3.length + 1) (fseek0 out3) m2 ⟨0, 0, 0, 0, 0⟩ with
      | returned x3 =>
        obtain ⟨m3, d⟩ := x3
        rw [e3] at h
        simp only [Outcome.returned.injEq] at h
        rw [← h]
        exact hc
      | overrun => rw [e3] at h; simp at h
      | outOfFuel => rw [e3] at h; simp at h
    | overrun => rw [e2] at h; simp at h
    | outOfFuel => rw [e2] at h; simp at h
  | overrun => rw [e1] at h; simp at h
  | outOfFuel => rw [e1] at h; simp at h

/-! ## The line-count aggregator -/

/-- C2, the code at the listing `["10 a.c", "20 b.c"]`: every line has the form
`<non-negative integer><whitespace><filename>` and the counts sum to `30`, yet as the listing of
the first directory it is reported as `files=2 lines=20`, whatever `lines` and `buf_bytes` held at
the start: the first `getline` allocates `buf` and stores the size `120` over `buf_bytes` and
`lines`, after `fscanf` has stored `10` and before the body adds `lines`.  As the listing of the
second directory, read into the buffer that is allocated by then, it is reported as
`files=2 lines=30`. -/
theorem first_count_lost :
    (∀ l ∈ [tenA, twentyB], l.isEntry = true) ∧ totalCount [tenA, twentyB] = 30 ∧
      (∀ lines0 buf_bytes0 : Int,
        main lines0 buf_bytes0 (fileOf [tenA, twentyB]) (fileOf []) (fileOf [])
          = Outcome.returned ⟨2, 20, 0, 0, 0, 0, 0⟩) ∧
      main 0 0 (fileOf [oneB]) (fileOf [tenA, twentyB]) (fileOf [])
        = Outcome.returned ⟨1, 0, 2, 30, 0, 0, 0⟩ :=
  ⟨by decide, by decide, fun _ _ => rfl, by decide⟩

/-- C3, the code at a listing with a `total` line: the line `total` does not begin with an
integer, and appending it to `["10 a.c"]` turns the result `(1, 10)` into `(2, 20)`; the line is
counted as a file and the count of the line before it is added once more.  Put first, it adds
whatever `lines` held before the scan. -/
theorem unparseable_line_counted :
    totalLine.beginsWithCount = false ∧
      scanListing 0 (fileOf [tenA]) = some ⟨1, 10, 10⟩ ∧
      scanListing 0 (fileOf [tenA, totalLine]) = some ⟨2, 20, 10⟩ ∧
      ∀ lines0 : Int, scanListing lines0 (fileOf [totalLine, tenA])
        = some ⟨2, wrap32 (wrap32 (0 + lines0) + 10), 10⟩ :=
  ⟨by decide, by decide, by decide, fun _ => rfl⟩

/-- On a listing whose lines all begin with a count, the counters of a scan do not depend on
what `lines` held before the scan. -/
theorem scanListing_counts_indep (L : List Line) (hL : ∀ l ∈ L, l.beginsWithCount = true)
    (lines lines2 : Int) :
    (scanListing lines (fileOf L)).map (fun st => (st.files, st.total))
      = (scanListing lines2 (fileOf L)).map (fun st => (st.files, st.total)) := by
  obtain ⟨a, ea⟩ := scanListing_counts L hL lines
  obtain ⟨b, eb⟩ := scanListing_counts L hL lines2
  rw [ea, eb]
  rfl

set_option maxRecDepth 100000 in
/-- C6, the code at two first listings `["10 a.c", "20 b.c"]` and `["10 a.c", "30 c.c"]` with the
same second listing `["total"]`: the report on the second directory is `(1, 20)` in one case and
`(1, 30)` in the other, the value left in `lines` by the first scan.  The diff scan is entered with
that value too: on the transcript made of a line of 131 characters and a hunk header it grows
`buf` and reports `deleted=1` after the first listing `["10 a.c"]`, which leaves `lines = 0`, and it
writes past the end of `buf` after the first listing `["10 a.c", "20 b.c"]`, which leaves
`lines = 20`. -/
theorem second_scan_depends_on_first :
    main 0 0 (fileOf [tenA, twentyB]) (fileOf [totalLine]) (fileOf [])
        = Outcome.returned ⟨2, 20, 1, 20, 0, 0, 0⟩ ∧
      main 0 0 (fileOf [tenA, thirtyC]) (fileOf [totalLine]) (fileOf [])
        = Outcome.returned ⟨2, 30, 1, 30, 0, 0, 0⟩ ∧
      main 0 0 (fileOf [tenA]) (fileOf []) (fileOf [longLine, hunkHeader])
        = Outcome.returned ⟨1, 0, 0, 0, 0, 0, 1⟩ ∧
      main 0 0 (fileOf [tenA, twentyB]) (fileOf []) (fileOf [longLine, hunkHeader])
        = Outcome.overrun :=
  ⟨by decide, by decide, by decide, by decide⟩

/-- C9, refuted as stated: both lines of `["2147483647 a", "1 b"]` begin with a non-negative
integer count, and the scan ends with `dirN_lines = -2147483648`. -/
theorem total_lines_negative_on_overflow :
    (∀ l ∈ [maxEntry, oneB], l.beginsWithCount = true) ∧
      ∃ st : ListingState, scanListing 0 (fileOf [maxEntry, oneB]) = some st ∧ st.total < 0 :=
  ⟨by decide, ⟨2, -2147483648, 1⟩, by decide, by decide⟩

/-- C9, amended: on a listing of fewer than `2^31` lines, each beginning with a non-negative
integer count, whose counts sum to less than `2^31`, the scan returns with `dirN_files >= 0` and
`dirN_lines >= 0`. -/
theorem summary_nonneg (L : List Line) (hL : ∀ l ∈ L, l.beginsWithCount = true)
    (hlen : L.length < 2147483648) (hsum : totalCount L < 2147483648) (lines : Int) :
    ∃ st : ListingState, scanListing lines (fileOf L) = some st ∧
      0 ≤ st.files ∧ 0 ≤ st.total := by
  obtain ⟨ln2, e⟩ := scanListing_counts L hL lines
  refine ⟨_, e, ?_, ?_⟩
  · show 0 ≤ wrap32 (L.length : Int)
    rw [wrap32_small _ (by omega) (by omega)]
    omega
  · show 0 ≤ wrap32 (totalCount L : Int)
    rw [wrap32_small _ (by omega) (by omega)]
    omega

/-- C9 amended, at the listing `["1 b", "10 a.c"]`. -/
theorem summary_nonneg_witness :
    (∀ l ∈ [oneB, tenA], l.beginsWithCount = true) ∧ [oneB, tenA].length < 2147483648 ∧
      totalCount [oneB, tenA] < 2147483648 ∧
      ∃ st : ListingState, scanListing 0 (fileOf [oneB, tenA]) = some st ∧
        0 ≤ st.files ∧ 0 ≤ st.total :=
  ⟨by decide, by decide, by decide, summary_nonneg [oneB, tenA] (by decide) (by decide)
    (by decide) 0⟩

end Bcscr
